import Mathlib

/-!
Shallow embedding of the ChangeSense MVP core pipeline
(`src/backend/app/{clause_tree,alignment,diff,diff_engine,rules_engine,rules,dependency,integrity,utils}.py`)
together with proofs settling the frozen claims about it.

Conventions of the embedding:
* Python strings are Lean `String`s, handled through their `List Char` data.
  The character classes (`\s`, `\w`, lowercasing) are modelled on the ASCII
  fragment, which is what every input in the repository exercises.
* Python floats only ever arise as similarity ratios and cosine scores, and the
  code only compares them (`>`, `>=`, `max`).  They are embedded exactly as
  unreduced fractions `Frac = Nat × Nat` (numerator, positive denominator),
  compared by cross-multiplication.  Cosine similarities, which involve a
  square root, are represented by their *square* (`cosineSq`): every comparison
  the source performs is against a nonnegative constant or another cosine, and
  squaring is monotone on nonnegatives, so the branch structure is identical.
* `difflib.SequenceMatcher` (used by `alignment.py`, `diff.py`, `diff_engine.py`)
  is embedded faithfully: `b2j` with junk and autojunk handling,
  `find_longest_match` with its four extension loops, the recursive matching
  block collection, adjacent-block merging, `get_opcodes` and `ratio`.
  The recursion of `get_matching_blocks` is driven by explicit fuel
  `(ahi-alo)+(bhi-blo)+1`, which dominates its decreasing measure.
-/

/-- Python `\s` / `str.isspace()` on ASCII: space, tab, newline, carriage
return, vertical tab, form feed. -/
def pySpace (c : Char) : Bool :=
  c = ' ' || c = '\t' || c = '\n' || c = '\x0d' || c = '\x0b' || c = '\x0c'

/-- Python `\w` on ASCII: letters, digits, underscore. -/
def pyWord (c : Char) : Bool :=
  ('a' ≤ c && c ≤ 'z') || ('A' ≤ c && c ≤ 'Z') || ('0' ≤ c && c ≤ '9') || c = '_'

/-- ASCII lowercasing, as `str.lower()` acts on the repository's inputs. -/
def lowChar (c : Char) : Char :=
  if 'A' ≤ c && c ≤ 'Z' then Char.ofNat (c.toNat + 32) else c

def lowStr (s : String) : String := ⟨s.data.map lowChar⟩

/-- Python `str.strip()`: remove leading and trailing whitespace. -/
def pyStripList (cs : List Char) : List Char :=
  ((cs.dropWhile pySpace).reverse.dropWhile pySpace).reverse

def pyStrip (s : String) : String := ⟨pyStripList s.data⟩

/-- `text.splitlines()[0]`: the text up to the first line break
(callers guard against empty text). -/
def firstLine (s : String) : String :=
  ⟨s.data.takeWhile (fun c => ¬ (c = '\n' || c = '\x0d'))⟩

/-- Python `len(s.split())`: the number of maximal runs of non-whitespace
characters. -/
def countWordsList : List Char → Nat
  | [] => 0
  | c :: [] => if pySpace c then 0 else 1
  | c :: d :: rest =>
      (if ¬ pySpace c && pySpace d then 1 else 0) + countWordsList (d :: rest)

def countWords (s : String) : Nat := countWordsList s.data

/-- `re.findall(r"\w+", s)`: the maximal word-character runs of `s`.
Built by a right fold that merges a word character into a following
word-run token. -/
def wordRunsList : List Char → List (List Char)
  | [] => []
  | c :: rest =>
      let r := wordRunsList rest
      if pyWord c then
        match rest with
        | d :: _ =>
            if pyWord d then
              match r with
              | t :: ts => (c :: t) :: ts
              | [] => [[c]]
            else [c] :: r
        | [] => [[c]]
      else r

def wordRuns (s : String) : List String := (wordRunsList s.data).map (⟨·⟩)

/-- Token of the display-diff tokenizer `re.findall(r'\b\w+\b|\s+|[^\w\s]', s)`:
a maximal word run, a maximal whitespace run, or a single other character.
The three alternatives partition the string. -/
def wordSpaceTokensList : List Char → List (List Char)
  | [] => []
  | c :: rest =>
      let r := wordSpaceTokensList rest
      let same : Bool :=
        match rest with
        | d :: _ => (pyWord c && pyWord d) || (pySpace c && pySpace d)
        | [] => false
      if same then
        match r with
        | t :: ts => (c :: t) :: ts
        | [] => [[c]]
      else [c] :: r

def wordSpaceTokens (s : String) : List String :=
  (wordSpaceTokensList s.data).map (⟨·⟩)

/-- Python `" ".join(xs)`. -/
def joinSpace (xs : List String) : String := String.intercalate " " xs

/-- Python list slice `l[i:j]` for `i ≤ j` (the only way the code uses it). -/
def listSlice (l : List α) (i j : Nat) : List α := (l.drop i).take (j - i)

/-! ### Exact similarity values

The source computes `difflib` ratios (`2*M/T`) and cosine similarities as
floats and only ever compares them.  A value is embedded as a pair
`(numerator, denominator)` with positive denominator, compared by
cross-multiplication, which is exact.  Cosine values are stored *squared*
(see `cosineSq`). -/
abbrev Frac := Nat × Nat

/-- Strict `<` on embedded fractions, by cross-multiplication. -/
def fracLt (a b : Frac) : Bool := a.1 * b.2 < b.1 * a.2

/-- `≤` on embedded fractions, by cross-multiplication. -/
def fracLe (a b : Frac) : Bool := a.1 * b.2 ≤ b.1 * a.2

/-- Python `max(a, b)`: returns the second argument only when it is strictly
greater (on ties `max` returns its first argument). -/
def fracMax (a b : Frac) : Frac := if fracLt a b then b else a

/-! ### `difflib.SequenceMatcher`

Faithful embedding of the parts the repository uses:
`__chain_b` (`b2j` with junk and autojunk), `find_longest_match`,
`get_matching_blocks` (recursive block collection plus adjacent-block
merging), `get_opcodes` and `ratio`. -/

section Difflib

variable {α : Type} [DecidableEq α]

/-- The ascending list of indices `j` with `b[j] = x`. -/
def positionsOf (b : List α) (x : α) : List Nat :=
  (List.range b.length).filter (fun j => b.get? j = some x)

/-- `b2j.get(x, [])` after `__chain_b`: junk elements are removed entirely;
with autojunk (the default), when `len(b) >= 200` the popular elements
(appearing more than `len(b)//100 + 1` times) are removed too. -/
def b2jGet (isjunk : α → Bool) (b : List α) (x : α) : List Nat :=
  if isjunk x then []
  else
    let l := positionsOf b x
    if 200 ≤ b.length ∧ b.length / 100 + 1 < l.length then [] else l

/-- Lookup in the `j2len` association list, defaulting to 0 as `dict.get`. -/
def alLookup (l : List (Nat × Nat)) (k : Nat) : Nat :=
  match l.find? (fun p => p.1 = k) with
  | some p => p.2
  | none => 0

/-- One row `i` of `find_longest_match`'s dynamic programming: walk the
positions `j` of `a[i]` in `b`, build `newj2len` and update the best block.
`j2len` is the previous row.  For `j = 0` Python reads `j2len.get(-1, 0) = 0`,
hence the `j = 0` case. -/
def flmRow (i : Nat) (js : List Nat) (j2len : List (Nat × Nat))
    (best : Nat × Nat × Nat) : List (Nat × Nat) × (Nat × Nat × Nat) :=
  js.foldl
    (fun st j =>
      let k := (if j = 0 then 0 else alLookup j2len (j - 1)) + 1
      let best' := if st.2.2.2 < k then (i + 1 - k, j + 1 - k, k) else st.2
      ((j, k) :: st.1, best'))
    ([], best)

/-- The outer `for i in range(alo, ahi)` loop of `find_longest_match`,
as a recursion on the number of remaining rows. -/
def flmRows (a : List α) (b2j : α → List Nat) (blo bhi : Nat) :
    Nat → Nat → List (Nat × Nat) → (Nat × Nat × Nat) → (Nat × Nat × Nat)
  | 0, _, _, best => best
  | steps + 1, i, j2len, best =>
      match a.get? i with
      | none => flmRows a b2j blo bhi steps (i + 1) [] best
      | some x =>
          let js := ((b2j x).takeWhile (· < bhi)).filter (fun j => blo ≤ j)
          let st := flmRow i js j2len best
          flmRows a b2j blo bhi steps (i + 1) st.1 st.2

/-- `good(b[ib]) and a[ia] == b[ib]`, the guard shared by the extension
loops (`good` is `not isbjunk` for the first pair, `isbjunk` for the second). -/
def extGuard (a b : List α) (good : α → Bool) (ia ib : Nat) : Bool :=
  match b.get? ib with
  | some y => good y && decide (a.get? ia = some y)
  | none => false

/-- One of `find_longest_match`'s left extension `while` loops: grow the best
block leftwards over elements accepted by `good` (first the non-junk pass,
then the junk pass).  The fuel passed by the caller, `besti`, bounds the
number of iterations since `besti` decreases to at most `alo`. -/
def extendLeft (a b : List α) (good : α → Bool) (alo blo : Nat) :
    Nat → (Nat × Nat × Nat) → (Nat × Nat × Nat)
  | 0, best => best
  | fuel + 1, (bi, bj, bs) =>
      if alo < bi ∧ blo < bj ∧ extGuard a b good (bi - 1) (bj - 1) then
        extendLeft a b good alo blo fuel (bi - 1, bj - 1, bs + 1)
      else (bi, bj, bs)

/-- The matching right extension loops; fuel `ahi` bounds the iterations. -/
def extendRight (a b : List α) (good : α → Bool) (ahi bhi : Nat) :
    Nat → (Nat × Nat × Nat) → (Nat × Nat × Nat)
  | 0, best => best
  | fuel + 1, (bi, bj, bs) =>
      if bi + bs < ahi ∧ bj + bs < bhi ∧ extGuard a b good (bi + bs) (bj + bs) then
        extendRight a b good ahi bhi fuel (bi, bj, bs + 1)
      else (bi, bj, bs)

/-- `find_longest_match(alo, ahi, blo, bhi)`: the dynamic programming pass
followed by the four extension loops in source order (non-junk left/right,
then junk left/right). -/
def findLongestMatch (isjunk : α → Bool) (a b : List α)
    (alo ahi blo bhi : Nat) : Nat × Nat × Nat :=
  let best0 := flmRows a (b2jGet isjunk b) blo bhi (ahi - alo) alo [] (alo, blo, 0)
  let best1 := extendLeft a b (fun y => ¬ isjunk y) alo blo best0.1 best0
  let best2 := extendRight a b (fun y => ¬ isjunk y) ahi bhi ahi best1
  let best3 := extendLeft a b (fun y => isjunk y) alo blo best2.1 best2
  extendRight a b (fun y => isjunk y) ahi bhi ahi best3

/-- The recursive block collection of `get_matching_blocks` (difflib's queue,
in in-order form — difflib sorts the collected blocks, which yields exactly
this concatenation).  The fuel `(ahi-alo)+(bhi-blo)+1` dominates the
decreasing measure of difflib's recursion, so it is never exhausted on the
ranges the code reaches.  An empty range makes `find_longest_match` return a
zero-size block, covering difflib's `alo < ahi and blo < bhi` test. -/
def matchBlocksF (isjunk : α → Bool) (a b : List α) :
    Nat → Nat → Nat → Nat → Nat → List (Nat × Nat × Nat)
  | 0, _, _, _, _ => []
  | fuel + 1, alo, ahi, blo, bhi =>
      let m := findLongestMatch isjunk a b alo ahi blo bhi
      if m.2.2 = 0 then []
      else
        matchBlocksF isjunk a b fuel alo m.1 blo m.2.1
          ++ m :: matchBlocksF isjunk a b fuel (m.1 + m.2.2) ahi (m.2.1 + m.2.2) bhi

def matchBlocks (isjunk : α → Bool) (a b : List α) (alo ahi blo bhi : Nat) :
    List (Nat × Nat × Nat) :=
  matchBlocksF isjunk a b ((ahi - alo) + (bhi - blo) + 1) alo ahi blo bhi

/-- The `non_adjacent` merging loop of `get_matching_blocks`: adjacent blocks
are combined; the accumulator starts at `(0, 0, 0)`. -/
def mergeAdjacent : List (Nat × Nat × Nat) → (Nat × Nat × Nat) → List (Nat × Nat × Nat)
  | [], acc => if acc.2.2 ≠ 0 then [acc] else []
  | (i2, j2, k2) :: rest, (i1, j1, k1) =>
      if i1 + k1 = i2 ∧ j1 + k1 = j2 then mergeAdjacent rest (i1, j1, k1 + k2)
      else (if k1 ≠ 0 then [(i1, j1, k1)] else []) ++ mergeAdjacent rest (i2, j2, k2)

/-- `get_matching_blocks()`: merged blocks plus the `(la, lb, 0)` terminal. -/
def getMatchingBlocks (isjunk : α → Bool) (a b : List α) : List (Nat × Nat × Nat) :=
  mergeAdjacent (matchBlocks isjunk a b 0 a.length 0 b.length) (0, 0, 0)
    ++ [(a.length, b.length, 0)]

/-- The opcode-building loop of `get_opcodes()`. -/
def opcodesGo : List (Nat × Nat × Nat) → Nat → Nat → List (String × Nat × Nat × Nat × Nat)
  | [], _, _ => []
  | (ai, bj, size) :: rest, i, j =>
      let tag : String :=
        if i < ai ∧ j < bj then "replace"
        else if i < ai then "delete"
        else if j < bj then "insert"
        else ""
      (if tag ≠ "" then [(tag, i, ai, j, bj)] else [])
        ++ (if size ≠ 0 then [("equal", ai, ai + size, bj, bj + size)] else [])
        ++ opcodesGo rest (ai + size) (bj + size)

/-- `get_opcodes()`. -/
def getOpcodes (isjunk : α → Bool) (a b : List α) :
    List (String × Nat × Nat × Nat × Nat) :=
  opcodesGo (getMatchingBlocks isjunk a b) 0 0

/-- `SequenceMatcher(None, a, b).ratio()` = `2*M/T`, or `1.0` when both
sequences are empty. -/
def seqRatio (a b : List α) : Frac :=
  let m := ((getMatchingBlocks (fun _ => false) a b).map (fun t => t.2.2)).sum
  if a.length + b.length = 0 then (1, 1) else (2 * m, a.length + b.length)

end Difflib

/-- `SequenceMatcher(None, s, t).ratio()` on two strings. -/
def strRatio (s t : String) : Frac := seqRatio s.data t.data

/-! ### `utils.py`: the legal tokenizer -/

/-- `utils.LEGAL_MULTIWORD`. -/
def LEGAL_MULTIWORD : List String :=
  ["to the extent", "provided that", "in accordance with", "subject to", "as set forth"]

/-- Python `str.replace(pat, repl)`: left-to-right non-overlapping
replacement.  Fuel = length of the text; each step consumes at least one
character (the patterns used are nonempty), so the fuel never runs out. -/
def replaceAllF (pat repl : List Char) : Nat → List Char → List Char
  | 0, cs => cs
  | fuel + 1, cs =>
      match cs with
      | [] => []
      | c :: rest =>
          if pat.isPrefixOf cs ∧ pat ≠ [] then
            repl ++ replaceAllF pat repl fuel (cs.drop pat.length)
          else c :: replaceAllF pat repl fuel rest

def strReplace (s pat repl : String) : String :=
  ⟨replaceAllF pat.data repl.data s.data.length s.data⟩

/-- `"x y z"` → `"x_y_z"`: `phrase.replace(" ", "_")`. -/
def underscored (s : String) : String :=
  ⟨s.data.map (fun c => if c = ' ' then '_' else c)⟩

/-- `re.findall(r"[\w_]+|[^\w\s]", t)`: maximal word runs plus single
non-word non-space characters; whitespace is dropped. -/
def legalTokensList : List Char → List (List Char)
  | [] => []
  | c :: rest =>
      let r := legalTokensList rest
      if pyWord c then
        match rest with
        | d :: _ =>
            if pyWord d then
              match r with
              | t :: ts => (c :: t) :: ts
              | [] => [[c]]
            else [c] :: r
        | [] => [[c]]
      else if pySpace c then r
      else [c] :: r

/-- `utils.tokenize_legal`: lowercase, join the legal multiword phrases with
underscores (in declared order), then split into word/punctuation tokens. -/
def tokenize_legal (text : String) : List String :=
  let t := LEGAL_MULTIWORD.foldl (fun acc p => strReplace acc p (underscored p)) (lowStr text)
  (legalTokensList t.data).map (⟨·⟩)

/-! ### Data model (`models.py`)

`ClauseNode.children` is omitted: the segmenter only ever attaches childless
nodes to the synthetic root (the tree is flat, spec §3), so a `ClauseTree`
carries the root's child list directly and `alignment._flatten` is the
identity on it.  Source spans do not influence any claimed behavior and are
omitted. -/

structure ClauseNode where
  clause_id : String
  type : String
  label : String
  path : String
  text : String
  text_tokens : List String
deriving DecidableEq, Repr

structure DefinedTerm where
  term : String
  definition_clause_id : String
  definition_text : String
deriving DecidableEq, Repr

structure ClauseTree where
  children : List ClauseNode
  defined_terms : List DefinedTerm
deriving DecidableEq, Repr

structure Block where
  block_type : String
  text : String
deriving DecidableEq, Repr

structure AlignmentReason where
  method : String
  score : Frac
deriving DecidableEq, Repr

structure AlignmentEntry where
  old_clause_id : String
  new_clause_ids : List String
  confidence : Frac
  reasons : List AlignmentReason
  move_detected : Bool
deriving DecidableEq, Repr

structure AlignmentMap where
  entries : List AlignmentEntry
deriving DecidableEq, Repr

structure ChangeSpan where
  before : String
  after : String
  token_start : Option Nat := none
  token_end : Option Nat := none
deriving DecidableEq, Repr

structure ChangeSet where
  clause_id : String
  before_text : String
  after_text : String
  insertions : List ChangeSpan
  deletions : List ChangeSpan
  substitutions : List ChangeSpan
  moved_blocks : List String
deriving DecidableEq, Repr

structure MaterialityFinding where
  clause_id : String
  category : String
  severity : String
  rationale : String
  exact_diff_span : ChangeSpan
deriving DecidableEq, Repr

structure IntegrityAlert where
  clause_id : String
  alert_type : String
  rationale : String
deriving DecidableEq, Repr

structure ImpactedClause where
  clause_id : String
  importance_score : ℚ
deriving DecidableEq, Repr

structure ImpactReport where
  term_changed : String
  definition_diff : ChangeSpan
  affected_clauses : List ImpactedClause
deriving DecidableEq, Repr

/-! ### `clause_tree.py`: the segmenter -/

/-- Greedy match of `\d+(?:\.\d+)*` at the front of `cs`, returning the
matched token and the rest (fuel = list length, ample since every recursive
step consumes at least one character).  Maximal munch is exact here: a
shorter match would leave a digit right after the `[\).]` bracket, where
`\s+` then fails, so backtracking can never succeed where the greedy parse
failed. -/
def numTokenF : Nat → List Char → Option (List Char × List Char)
  | 0, _ => none
  | fuel + 1, cs =>
      match cs.takeWhile Char.isDigit, cs.dropWhile Char.isDigit with
      | [], _ => none
      | ds, rest =>
          match rest with
          | '.' :: more =>
              if (more.takeWhile Char.isDigit) = [] then some (ds, rest)
              else
                match numTokenF fuel more with
                | some (ds2, rest2) => some (ds ++ '.' :: ds2, rest2)
                | none => some (ds, rest)
          | _ => some (ds, rest)

def numToken (cs : List Char) : Option (List Char × List Char) :=
  numTokenF cs.length cs

/-- Greedy `[IVX]+` at the front. -/
def ivxToken (cs : List Char) : Option (List Char × List Char) :=
  match cs.takeWhile (fun c => c = 'I' || c = 'V' || c = 'X') with
  | [] => none
  | ds => some (ds, cs.dropWhile (fun c => c = 'I' || c = 'V' || c = 'X'))

/-- Single `[A-Z]` at the front. -/
def upperToken (cs : List Char) : Option (List Char × List Char) :=
  match cs with
  | c :: rest => if 'A' ≤ c ∧ c ≤ 'Z' then some ([c], rest) else none
  | [] => none

/-- After the label and the `[\).]` bracket: `\s+(.*)$` (with `$` also
matching just before one final newline).  Requires at least one whitespace
character; the greedy `\s+` then leaves `(.*)` the rest, which must be free
of line breaks apart from one trailing newline. -/
def headingTail (cs : List Char) : Option (List Char) :=
  match cs with
  | c :: _ =>
      if pySpace c then
        let u := cs.dropWhile pySpace
        let u' := if u.getLast? = some '\n' then u.dropLast else u
        if u'.contains '\n' then none else some u'
      else none
  | [] => none

/-- `clause_tree.HEADING_RE.match(text)`:
`^\s*(\d+(?:\.\d+)*|[IVX]+|[A-Z])\s*[\).]\s+(.*)$` — returns
`(label, heading_text)` on a match.  The alternation is tried left to right;
for each alternative, maximal munch is exact (a shorter label leaves a
label character where the bracket must be). -/
def headingMatch (text : String) : Option (String × String) :=
  let cs := text.data.dropWhile pySpace
  let tryTail : List Char × List Char → Option (String × String) := fun (lab, rest) =>
    match rest.dropWhile pySpace with
    | ')' :: tail => (headingTail tail).map (fun t => (⟨lab⟩, ⟨t⟩))
    | '.' :: tail => (headingTail tail).map (fun t => (⟨lab⟩, ⟨t⟩))
    | _ => none
  match numToken cs with
  | some p =>
      match tryTail p with
      | some r => some r
      | none =>
          match ivxToken cs with
          | some q =>
              (tryTail q).orElse fun _ => (upperToken cs).bind tryTail
          | none => (upperToken cs).bind tryTail
  | none =>
      match ivxToken cs with
      | some q => (tryTail q).orElse fun _ => (upperToken cs).bind tryTail
      | none => (upperToken cs).bind tryTail

/-- `clause_tree._make_node` (source span omitted, children always empty). -/
def mkClauseNode (idx : Nat) (label text ntype : String) : ClauseNode :=
  { clause_id := "clause-" ++ toString idx, type := ntype, label := label,
    path := label, text := text, text_tokens := tokenize_legal text }

/-- `re.match(r"\"([^\"]+)\"\s+means\s+(.*)", text, re.IGNORECASE)`:
an opening quote, a nonempty run of non-quote characters (the term), the
closing quote, whitespace, `means` case-insensitively, whitespace, then the
rest of the line (`.` stops at a newline).  Greedy `[^"]+` and `\s+` cannot
backtrack into a successful parse the scanner misses. -/
def defTermMatch (cs : List Char) : Option (String × String) :=
  match cs with
  | '"' :: rest =>
      let term := rest.takeWhile (fun c => c ≠ '"')
      if term = [] then none
      else
        match rest.dropWhile (fun c => c ≠ '"') with
        | '"' :: r2 =>
            match r2 with
            | w :: _ =>
              if pySpace w then
                match r2.dropWhile pySpace with
                | m :: e :: a :: n :: s :: r4 =>
                    if lowChar m = 'm' ∧ lowChar e = 'e' ∧ lowChar a = 'a' ∧
                        lowChar n = 'n' ∧ lowChar s = 's' then
                      match r4 with
                      | w2 :: _ =>
                          if pySpace w2 then
                            some (⟨term⟩, ⟨(r4.dropWhile pySpace).takeWhile (fun c => c ≠ '\n')⟩)
                          else none
                      | [] => none
                    else none
                | _ => none
              else none
            | [] => none
        | _ => none
  | _ => none

/-- `clause_tree._extract_defined_terms` as a pure function of the node. -/
def extractDefinedTerm (n : ClauseNode) : Option DefinedTerm :=
  (defTermMatch n.text.data).map fun p => ⟨p.1, n.clause_id, p.2⟩

/-- Append the node's defined term, if any (`terms.append(...)` in source). -/
def extractInto (n : ClauseNode) (terms : List DefinedTerm) : List DefinedTerm :=
  match extractDefinedTerm n with
  | some t => terms ++ [t]
  | none => terms

/-- The mutable locals of `build_clause_tree`'s block loop. -/
structure SegState where
  idx : Nat
  current : Option (String × String)
  buffer : String
  children : List ClauseNode
  terms : List DefinedTerm
deriving Repr

/-- `flush()`: finish the open buffer into a clause when a heading is open
and the buffer has non-whitespace content. -/
def segFlush (st : SegState) : SegState :=
  match st.current with
  | some (lab, ty) =>
      if pyStrip st.buffer ≠ "" then
        let node := mkClauseNode (st.idx + 1) lab (pyStrip st.buffer) ty
        { idx := st.idx + 1, current := none, buffer := "",
          children := st.children ++ [node], terms := extractInto node st.terms }
      else st
  | none => st

/-- One iteration of `build_clause_tree`'s `for block in blocks` loop. -/
def segStep (st : SegState) (b : Block) : SegState :=
  if b.text = "" then st
  else
    match headingMatch b.text with
    | some (label, heading) =>
        let st := segFlush st
        let ntype :=
          if "definitions".data.isPrefixOf (lowStr heading).data then "definition" else "section"
        { st with current := some (label, ntype), buffer := b.text }
    | none =>
        if "table".data.isPrefixOf b.block_type.data then
          match st.current with
          | some _ => { st with buffer := st.buffer ++ "\n" ++ b.text }
          | none =>
              { st with
                  idx := st.idx + 1,
                  children := st.children ++ [mkClauseNode (st.idx + 1) "table" b.text "table"] }
        else
          match st.current with
          | some _ => { st with buffer := st.buffer ++ "\n" ++ b.text }
          | none =>
              let node := mkClauseNode (st.idx + 1) "section" b.text "section"
              { st with
                  idx := st.idx + 1,
                  children := st.children ++ [node],
                  terms := extractInto node st.terms }

/-- `clause_tree.build_clause_tree`. -/
def build_clause_tree (blocks : List Block) : ClauseTree :=
  let st := segFlush (blocks.foldl segStep ⟨0, none, "", [], []⟩)
  { children := st.children, defined_terms := st.terms }

/-! ### `alignment.py` -/

/-- `alignment._normalize_label`: `re.sub(r"\W+", "", label.lower())`. -/
def normalizeLabel (s : String) : String := ⟨(lowStr s).data.filter pyWord⟩

/-- `\s+(.+?)\s*$` after the bracket of `alignment.HEADING_RE`: at least one
whitespace character, then the lazily shortest nonempty title followed by
only whitespace — i.e. the rest minus its trailing whitespace run, or a
single whitespace character (stripped to `""` by the caller) when only
whitespace remains. -/
def alignTailTitle (num v : List Char) : Option (String × String) :=
  match v with
  | c :: crest =>
      if pySpace c then
        match v.dropWhile pySpace with
        | [] => if crest = [] then none else some (⟨num⟩, "")
        | r => some (⟨num⟩, ⟨(r.reverse.dropWhile pySpace).reverse⟩)
      else none
  | [] => none

/-- `alignment.HEADING_RE.match`: `^\s*(\d+(?:\.\d+)*)\s*[\).]\s+(.+?)\s*$`,
with the `.strip()` the caller applies to `group(2)` folded in (the title
produced already carries no surrounding whitespace).  Callers pass a single
stripped line. -/
def alignHeadingMatch (cs : List Char) : Option (String × String) :=
  let cs1 := cs.dropWhile pySpace
  match numToken cs1 with
  | none => none
  | some (num, rest) =>
      match rest.dropWhile pySpace with
      | ')' :: v => alignTailTitle num v
      | '.' :: v => alignTailTitle num v
      | _ => none

/-- `alignment._extract_heading_parts`. -/
def alignHeadingParts (n : ClauseNode) : String × String :=
  if n.text = "" then ("", "")
  else
    match alignHeadingMatch (pyStrip (firstLine n.text)).data with
    | some p => p
    | none => ("", "")

/-- `alignment._match_key`. -/
def matchKey (n : ClauseNode) : String :=
  let title := (alignHeadingParts n).2
  if title ≠ "" then normalizeLabel title else normalizeLabel n.label

/-- `alignment._bag_vector`: token counts in first-appearance order. -/
def bagAdd : List (String × Nat) → String → List (String × Nat)
  | [], t => [(t, 1)]
  | (k, v) :: rest, t => if k = t then (k, v + 1) :: rest else (k, v) :: bagAdd rest t

def bagVector (text : String) : List (String × Nat) :=
  (wordRuns (lowStr text)).foldl bagAdd []

def bagGet (b : List (String × Nat)) (k : String) : Nat :=
  match b.find? (fun p => p.1 = k) with
  | some p => p.2
  | none => 0

/-- `sum(a.get(k,0) * b.get(k,0) for k in a.keys())`. -/
def bagDot (a b : List (String × Nat)) : Nat :=
  (a.map (fun p => p.2 * bagGet b p.1)).sum

def bagNormSq (a : List (String × Nat)) : Nat :=
  (a.map (fun p => p.2 * p.2)).sum

/-- The *square* of `alignment._cosine` as an exact fraction.  The source
computes `dot / (√normA · √normB)`, a nonnegative float, and only compares
it with nonnegative constants and other cosines; squaring is monotone on
nonnegatives, so every comparison is preserved exactly. -/
def cosineSq (a b : List (String × Nat)) : Frac :=
  if a = [] ∨ b = [] then (0, 1)
  else if bagNormSq a ≠ 0 ∧ bagNormSq b ≠ 0 then
    (bagDot a b * bagDot a b, bagNormSq a * bagNormSq b)
  else (0, 1)

/-- `0.55` on the squared-cosine scale: `0.55² = 121/400`. -/
def cosineGate : Frac := (121, 400)

/-- `0.45` on the squared-cosine scale: `0.45² = 81/400`. -/
def splitGate : Frac := (81, 400)

/-- Stage 1 (`title_exact`): the first unused clause of `b_by_key[key]`,
provided the key is nonempty.  The index lists the `B` nodes with that
(nonempty) key in document order. -/
def stage1Pick (bs : List ClauseNode) (used : List String) (a : ClauseNode) :
    Option ClauseNode :=
  let key := matchKey a
  if key = "" then none
  else (bs.filter (fun n => matchKey n = key)).find? (fun c => decide (c.clause_id ∉ used))

/-- `_extract_heading_parts(x)[1] or x.label`. -/
def stage2Title (n : ClauseNode) : String :=
  let t := (alignHeadingParts n).2
  if t ≠ "" then t else n.label

/-- Stage 2 score: `max(label_sim, head_sim)`. -/
def stage2Score (a b : ClauseNode) : Frac :=
  let ta := stage2Title a
  let tb := stage2Title b
  let labelSim := if ta ≠ "" ∧ tb ≠ "" then strRatio ta tb else (0, 1)
  let headSim := strRatio (joinSpace (a.text_tokens.take 12)) (joinSpace (b.text_tokens.take 12))
  fracMax labelSim headSim

/-- The shared best-candidate scan of stages 2 and 3: skip used clauses,
keep the first strictly best score (`if score > best[0]`). -/
def bestScan (score : ClauseNode → Frac) (used : List String) (bs : List ClauseNode) :
    Frac × Option ClauseNode :=
  bs.foldl
    (fun best b =>
      if b.clause_id ∈ used then best
      else if fracLt best.1 (score b) then (score b, some b) else best)
    ((0, 1), none)

/-- Stage 2 (`label_or_heading_fuzzy`): accept the best unused clause when
its score is `≥ 0.7`. -/
def stage2Pick (bs : List ClauseNode) (used : List String) (a : ClauseNode) :
    Option (ClauseNode × Frac) :=
  let best := bestScan (stage2Score a) used bs
  match best.2 with
  | some n => if fracLe (7, 10) best.1 then some (n, best.1) else none
  | none => none

/-- Stage 3 (`semantic_cosine`): accept the best unused clause when its
(squared) cosine is `≥ 0.55²`. -/
def stage3Pick (bs : List ClauseNode) (used : List String) (a : ClauseNode) :
    Option (ClauseNode × Frac) :=
  let av := bagVector (joinSpace a.text_tokens)
  let best := bestScan (fun b => cosineSq av (bagVector (joinSpace b.text_tokens))) used bs
  match best.2 with
  | some n => if fracLe cosineGate best.1 then some (n, best.1) else none
  | none => none

/-- Stage 4 candidate collection: unused clauses with cosine `≥ 0.45`. -/
def stage4Candidates (bs : List ClauseNode) (used : List String) (a : ClauseNode) :
    List (Frac × ClauseNode) :=
  let av := bagVector (joinSpace a.text_tokens)
  bs.filterMap fun b =>
    if b.clause_id ∈ used then none
    else
      let s := cosineSq av (bagVector (joinSpace b.text_tokens))
      if fracLe splitGate s then some (s, b) else none

/-- `candidates.sort(reverse=True, key=lambda x: x[0])`: Python's sort is
stable, so this is the stable descending sort by score (insertion places a
new element before strictly smaller scores and after equal ones; the fold
inserts from the right, preserving scan order among numeric ties). -/
def sortCandidates (l : List (Frac × ClauseNode)) : List (Frac × ClauseNode) :=
  l.insertionSort (fun x y => fracLe y.1 x.1 = true)

/-- `max(r.score for r in reasons) if reasons else 0.0`. -/
def maxReasonScore : List AlignmentReason → Frac
  | [] => (0, 1)
  | r :: rs => rs.foldl (fun m x => fracMax m x.score) r.score

/-- The single-target entry constructor with move detection
(`alignment.align_clauses`, `if matched:` branch). -/
def singleTargetEntry (a matched : ClauseNode) (reasons : List AlignmentReason) :
    AlignmentEntry :=
  let aNum := (alignHeadingParts a).1
  let aTitle := (alignHeadingParts a).2
  let bNum := (alignHeadingParts matched).1
  let bTitle := (alignHeadingParts matched).2
  let sameTitle := normalizeLabel aTitle ≠ "" ∧ normalizeLabel aTitle = normalizeLabel bTitle
  let renumberOnly := sameTitle ∧ aNum ≠ "" ∧ bNum ≠ "" ∧ aNum ≠ bNum
  { old_clause_id := a.clause_id, new_clause_ids := [matched.clause_id],
    confidence := maxReasonScore reasons, reasons := reasons,
    move_detected := decide (a.path ≠ matched.path ∧ ¬ renumberOnly) }

/-- One iteration of the aligner's `for a in a_nodes` loop, carrying the
`used` set (as an id list, membership only) and the emitted entries. -/
def alignStep (bs : List ClauseNode) (st : List String × List AlignmentEntry)
    (a : ClauseNode) : List String × List AlignmentEntry :=
  let used := st.1
  match stage1Pick bs used a with
  | some m =>
      (used ++ [m.clause_id], st.2 ++ [singleTargetEntry a m [⟨"title_exact", (1, 1)⟩]])
  | none =>
      match stage2Pick bs used a with
      | some p =>
          (used ++ [p.1.clause_id],
            st.2 ++ [singleTargetEntry a p.1 [⟨"label_or_heading_fuzzy", p.2⟩]])
      | none =>
          match stage3Pick bs used a with
          | some p =>
              (used ++ [p.1.clause_id],
                st.2 ++ [singleTargetEntry a p.1 [⟨"semantic_cosine", p.2⟩]])
          | none =>
              match sortCandidates (stage4Candidates bs used a) with
              | [] => (used, st.2 ++ [⟨a.clause_id, [], (0, 1), [], false⟩])
              | c :: rest =>
                  let ids := ((c :: rest).take 2).map (fun p => p.2.clause_id)
                  (used ++ ids,
                    st.2 ++ [⟨a.clause_id, ids, c.1, [⟨"split_merge", c.1⟩], false⟩])

/-- `alignment.align_clauses` on the flattened, root-excluded clause lists. -/
def alignNodes (aNodes bNodes : List ClauseNode) : AlignmentMap :=
  ⟨(aNodes.foldl (alignStep bNodes) ([], [])).2⟩

/-- `alignment.align_clauses` on trees (`_flatten` of the flat trees the
segmenter builds is the root's child list). -/
def align_clauses (ta tb : ClauseTree) : AlignmentMap :=
  alignNodes ta.children tb.children

/-! ### `diff.py`: word-level display diff -/

structure WordSpan where
  text : String
  offset : Nat
  kind : String
deriving DecidableEq, Repr

structure WordDiff where
  before_spans : List WordSpan
  after_spans : List WordSpan
deriving DecidableEq, Repr

/-- The junk test `lambda x: x.isspace() or x in ''` of
`_compute_word_diff_spans` (the second disjunct is vacuously false):
a nonempty all-whitespace token. -/
def isSpaceTok (t : String) : Bool := t.data.all pySpace && decide (t.data ≠ [])

/-- The opcode loop of `diff._compute_word_diff_spans`: per opcode, emit one
span per token of the before segment (unless inserting) and per token of the
after segment (unless deleting), advancing the character positions by every
token's length. -/
def wordDiffFold (bw aw : List String) :
    List (String × Nat × Nat × Nat × Nat) →
    List WordSpan → List WordSpan → Nat → Nat → WordDiff
  | [], bacc, aacc, _, _ => ⟨bacc, aacc⟩
  | (tag, i1, i2, j1, j2) :: rest, bacc, aacc, bpos, apos =>
      let bres := (listSlice bw i1 i2).foldl
        (fun (acc : List WordSpan × Nat) w =>
          (acc.1 ++ (if tag ≠ "insert" then
              [⟨w, acc.2, if tag = "delete" then "removed" else "unchanged"⟩] else []),
            acc.2 + w.length))
        (bacc, bpos)
      let ares := (listSlice aw j1 j2).foldl
        (fun (acc : List WordSpan × Nat) w =>
          (acc.1 ++ (if tag ≠ "delete" then
              [⟨w, acc.2, if tag = "insert" then "added" else "unchanged"⟩] else []),
            acc.2 + w.length))
        (aacc, apos)
      wordDiffFold bw aw rest bres.1 ares.1 bres.2 ares.2

/-- `diff._compute_word_diff_spans`. -/
def computeWordDiffSpans (before after : String) : WordDiff :=
  let bw := wordSpaceTokens before
  let aw := wordSpaceTokens after
  wordDiffFold bw aw (getOpcodes isSpaceTok bw aw) [] [] 0 0

/-! ### `diff_engine.py` -/

/-- The opcode loop of `diff_engine._diff_tokens`: insertions carry the
after-side range `(b0, b1)`, deletions the before-side range `(a0, a1)`,
substitutions the after-side range `(b0, b1)`. -/
def diffTokensGo (before after : List String) :
    List (String × Nat × Nat × Nat × Nat) →
    List ChangeSpan × List ChangeSpan × List ChangeSpan
  | [] => ([], [], [])
  | (tag, a0, a1, b0, b1) :: rest =>
      let r := diffTokensGo before after rest
      if tag = "insert" then
        (⟨"", joinSpace (listSlice after b0 b1), some b0, some b1⟩ :: r.1, r.2.1, r.2.2)
      else if tag = "delete" then
        (r.1, ⟨joinSpace (listSlice before a0 a1), "", some a0, some a1⟩ :: r.2.1, r.2.2)
      else if tag = "replace" then
        (r.1, r.2.1,
          ⟨joinSpace (listSlice before a0 a1), joinSpace (listSlice after b0 b1),
            some b0, some b1⟩ :: r.2.2)
      else r

/-- `diff_engine._diff_tokens`. -/
def diffTokens (before after : List String) :
    List ChangeSpan × List ChangeSpan × List ChangeSpan :=
  diffTokensGo before after (getOpcodes (fun _ => false) before after)

/-- `diff_engine.diff_clause`. -/
def diff_clause (before_text after_text : String) : ChangeSet :=
  let r := diffTokens (tokenize_legal before_text) (tokenize_legal after_text)
  { clause_id := "", before_text := before_text, after_text := after_text,
    insertions := r.1, deletions := r.2.1, substitutions := r.2.2, moved_blocks := [] }

/-! ### `rules_engine.py` -/

/-- `rules_engine.MODAL_SHIFTS`, in declared order. -/
def MODAL_SHIFTS : List (String × String × String) :=
  [("may", "shall", "Obligation strengthened"),
   ("may", "must", "Obligation strengthened"),
   ("may", "will", "Obligation strengthened"),
   ("shall", "may", "Obligation weakened"),
   ("must", "may", "Obligation weakened"),
   ("will", "may", "Obligation weakened")]

/-- Whether `modal` occurs at position `i` of `text` with `\b` word
boundaries on both sides (the modals consist of word characters only). -/
def hasModalAt (text modal : List Char) (i : Nat) : Bool :=
  modal.isPrefixOf (text.drop i)
    && (decide (i = 0) || !(pyWord (text.getD (i - 1) ' ')))
    && !(pyWord (text.getD (i + modal.length) ' '))

/-- `re.search(rf"\b{re.escape(modal)}\b", text) is not None`. -/
def hasModal (text modal : String) : Bool :=
  (List.range (text.data.length + 1)).any (hasModalAt text.data modal.data)

/-- `rules_engine._find_modal_shift`: for each `(frm, to, rationale)` of the
fixed table, fire a high-severity "Obligation Strength" finding when the
lowercased before contains `frm`, the lowercased after contains `to`, and
the lowercased after no longer contains `frm` (all as whole words). -/
def findModalShift (before after : String) : List MaterialityFinding :=
  MODAL_SHIFTS.filterMap fun t =>
    if hasModal (lowStr before) t.1 && hasModal (lowStr after) t.2.1
        && !(hasModal (lowStr after) t.1) then
      some ⟨"", "Obligation Strength", "high", t.2.2, ⟨before, after, none, none⟩⟩
    else none

/-! ### `rules.py` and its helpers

`rules.py` imports `tokenize_modal`, `extract_numbers` and `extract_dates`
from `utils`, but the `utils.py` in the source tree does not define them:
they are modelled from the spec (§4.4) below. -/

/-- Modelled from the spec: the modal-verb lexicon behind
`utils.tokenize_modal` (absent from the source tree).  §4.4 and the two
shift tables mention exactly the modals may/shall/must/should/will. -/
def MODAL_LEXICON : List String := ["may", "shall", "must", "should", "will"]

/-- Set-building append: keep first occurrences only. -/
def dedupAppend (l : List String) (s : String) : List String :=
  if s ∈ l then l else l ++ [s]

/-- Modelled from the spec: `utils.tokenize_modal` (imported by `rules.py`
but absent from the source tree); §4.4's summary classifier "extracts
modal-verb sets", modelled as the set of lexicon modals among the word
tokens of the lowercased text, in first-appearance order. -/
def tokenize_modal (text : String) : List String :=
  ((wordRuns (lowStr text)).filter (fun t => t ∈ MODAL_LEXICON)).foldl dedupAppend []

/-- Maximal digit runs of a character list (structure of `wordRunsList`
specialised to digits). -/
def digitRunsList : List Char → List (List Char)
  | [] => []
  | c :: rest =>
      let r := digitRunsList rest
      if c.isDigit then
        match rest with
        | d :: _ =>
            if d.isDigit then
              match r with
              | t :: ts => (c :: t) :: ts
              | [] => [[c]]
            else [c] :: r
        | [] => [[c]]
      else r

/-- Modelled from the spec: `utils.extract_numbers` (imported by `rules.py`
but absent from the source tree); §4.4's "numeric sets", modelled as the set
of maximal digit runs of the text. -/
def extract_numbers (text : String) : List String :=
  ((digitRunsList text.data).map (⟨·⟩)).foldl dedupAppend []

/-- Maximal runs of non-whitespace characters. -/
def nonSpaceRuns : List Char → List (List Char)
  | [] => []
  | c :: rest =>
      let r := nonSpaceRuns rest
      if ¬ pySpace c then
        match rest with
        | d :: _ =>
            if ¬ pySpace d then
              match r with
              | t :: ts => (c :: t) :: ts
              | [] => [[c]]
            else [c] :: r
        | [] => [[c]]
      else r

/-- A whitespace-separated token shaped like a date literal: digits joined
by `/` or `-`, starting and ending with a digit. -/
def looksLikeDate (t : List Char) : Bool :=
  t.any (fun c => c = '/' || c = '-')
    && t.all (fun c => c.isDigit || c = '/' || c = '-')
    && (match t with | c :: _ => c.isDigit | [] => false)
    && (match t.getLast? with | some c => c.isDigit | none => false)

/-- Modelled from the spec: `utils.extract_dates` (imported by `rules.py`
but absent from the source tree); §4.4's "date sets", modelled as the set of
whitespace-separated date-shaped tokens (e.g. `12/31/2024`, `2024-12-31`). -/
def extract_dates (text : String) : List String :=
  (((nonSpaceRuns text.data).filter looksLikeDate).map (⟨·⟩)).foldl dedupAppend []

/-- `rules.OBLIGATION_SHIFT_MAP`, in declared order. -/
def OBLIGATION_SHIFT_MAP : List ((String × String) × String) :=
  [(("may", "shall"), "Permission tightened to obligation"),
   (("may", "must"), "Permission tightened to obligation"),
   (("should", "shall"), "Advisory hardened to obligation"),
   (("should", "must"), "Advisory hardened to obligation"),
   (("shall", "may"), "Obligation softened to permission"),
   (("must", "may"), "Obligation softened to permission")]

def shiftLookup (k : String × String) : Option String :=
  (OBLIGATION_SHIFT_MAP.find? (fun p => p.1 = k)).map (fun p => p.2)

structure ObligationShift where
  fromModal : String
  toModal : String
  reason : String
deriving DecidableEq, Repr

/-- `rules.detect_obligation_shift`: the nested loops over the two modal
sets, keeping the pairs present in the shift map. -/
def detect_obligation_shift (before after : String) : List ObligationShift :=
  (tokenize_modal before).flatMap fun b =>
    (tokenize_modal after).filterMap fun a =>
      if b ≠ a then
        match shiftLookup (b, a) with
        | some r => some ⟨b, a, r⟩
        | none => none
      else none

structure NumDateChange where
  before : List String
  after : List String
  changed : Bool
deriving DecidableEq, Repr

/-- Equality of the sets represented by two lists. -/
def sameSet (b a : List String) : Bool :=
  b.all (fun x => x ∈ a) && a.all (fun x => x ∈ b)

/-- Python `sorted(...)` on strings: stable ascending sort. -/
def sortStrings (l : List String) : List String :=
  l.insertionSort (fun a b => ¬ b < a)

/-- `rules.detect_numeric_changes`. -/
def detect_numeric_changes (before after : String) : NumDateChange :=
  let b := extract_numbers before
  let a := extract_numbers after
  ⟨sortStrings b, sortStrings a, !(sameSet b a)⟩

/-- `rules.detect_date_changes`. -/
def detect_date_changes (before after : String) : NumDateChange :=
  let b := extract_dates before
  let a := extract_dates after
  ⟨sortStrings b, sortStrings a, !(sameSet b a)⟩

structure ModifiedClause where
  id : String
  heading : String
  before : String
  after : String
deriving DecidableEq, Repr

structure RiskTag where
  id : String
  heading : String
  risk_tags : List String
  obligation_shifts : List ObligationShift
  numeric : NumDateChange
  dates : NumDateChange
deriving DecidableEq, Repr

/-- `rules.risk_tag_clause`. -/
def risk_tag_clause (mc : ModifiedClause) : RiskTag :=
  let shifts := detect_obligation_shift mc.before mc.after
  let numbers := detect_numeric_changes mc.before mc.after
  let dates := detect_date_changes mc.before mc.after
  { id := mc.id, heading := mc.heading,
    risk_tags :=
      (if shifts ≠ [] then ["obligation_shift"] else [])
        ++ (if numbers.changed then ["numeric_change"] else [])
        ++ (if dates.changed then ["date_change"] else []),
    obligation_shifts := shifts, numeric := numbers, dates := dates }

/-! ### `dependency.py` -/

structure TermUsage where
  term : String
  clause_id : String
  count : Nat
deriving DecidableEq, Repr

structure DefChange where
  term : String
  before : String
  after : String
deriving DecidableEq, Repr

/-- Python `s.count(sub)` for nonempty `sub`: non-overlapping occurrences,
scanning left to right (fuel = list length, ample). -/
def strCountF (sub : List Char) : Nat → List Char → Nat
  | 0, _ => 0
  | fuel + 1, cs =>
      match cs with
      | [] => 0
      | _ :: rest =>
          if sub.isPrefixOf cs ∧ sub ≠ [] then 1 + strCountF sub fuel (cs.drop sub.length)
          else strCountF sub fuel rest

def strCount (s sub : String) : Nat := strCountF sub.data s.data.length s.data

/-- `dependency.build_term_index`: for each defined term, the clauses whose
lowercased text contains the lowercased term, with occurrence counts. -/
def build_term_index (clauses : List ClauseNode) (defined_terms : List DefinedTerm) :
    List TermUsage :=
  defined_terms.flatMap fun term =>
    clauses.filterMap fun clause =>
      let count := strCount (lowStr clause.text) (lowStr term.term)
      if count ≠ 0 then some ⟨term.term, clause.clause_id, count⟩ else none

/-- `usage_by_term.get(term, [])`: grouping preserves per-term encounter
order, so the group of a term is the order-preserving filter. -/
def usageFor (usage : List TermUsage) (t : String) : List TermUsage :=
  usage.filter (fun u => u.term = t)

/-- `sorted(..., key=lambda x: x.importance_score, reverse=True)`: Python's
sort is stable, so this is the stable descending sort by score (insertion
from the right places each element after all earlier elements with an equal
or greater score). -/
def sortImpacted (l : List ImpactedClause) : List ImpactedClause :=
  l.insertionSort (fun x y => y.importance_score ≤ x.importance_score)

/-- `dependency.build_impact_reports`. -/
def build_impact_reports (changes : List DefChange) (usage : List TermUsage) :
    List ImpactReport :=
  changes.map fun c =>
    { term_changed := c.term,
      definition_diff := ⟨c.before, c.after, none, none⟩,
      affected_clauses :=
        sortImpacted ((usageFor usage c.term).map fun u => ⟨u.clause_id, (u.count : ℚ)⟩) }

/-! ### `integrity.py` -/

/-- The combined word count of a change set's insertion after-texts and
deletion before-texts. -/
def integrityWordCount (c : ChangeSet) : Nat :=
  (c.insertions.map (fun s => countWords s.after)).sum
    + (c.deletions.map (fun s => countWords s.before)).sum

/-- `integrity.detect_integrity`. -/
def detect_integrity (change_sets : List ChangeSet) : List IntegrityAlert :=
  change_sets.flatMap fun change =>
    (if 40 < integrityWordCount change then
      [⟨change.clause_id, "large_untracked_change",
        "Large insertion/deletion without explicit tracking metadata"⟩]
    else [])
      ++ (if change.moved_blocks ≠ [] then
        [⟨change.clause_id, "moved_content", "Content moved between sections"⟩]
      else [])

/-! ### Property-level definitions used by the claim statements -/

/-- The spans' recorded offsets are consecutive character positions starting
at `pos`: each span starts where the previous one ended. -/
def offsetsOk : Nat → List WordSpan → Prop
  | _, [] => True
  | pos, s :: rest => s.offset = pos ∧ offsetsOk (pos + s.text.length) rest

/-- `Chain i j i' j' blocks`: the matching blocks form a monotone chain from
position `(i, j)` to `(i', j')` — each block starts at or after the current
position and advances it past its own end. -/
def Chain : Nat → Nat → Nat → Nat → List (Nat × Nat × Nat) → Prop
  | i, j, i', j', [] => i' = i ∧ j' = j
  | i, j, i', j', (ai, bj, k) :: rest => i ≤ ai ∧ j ≤ bj ∧ Chain (ai + k) (bj + k) i' j' rest

/-- The spans one opcode segment contributes: one span per token, with
consecutive offsets from `pos`. -/
def spansFrom (ty : String) : Nat → List String → List WordSpan
  | _, [] => []
  | pos, w :: ws => ⟨w, pos, ty⟩ :: spansFrom ty (pos + w.length) ws

/-- The alignment entry produced for a clause matched to its own copy in
stage 1: single target, score 1.0, method `title_exact`, no move. -/
def selfEntry (n : ClauseNode) : AlignmentEntry :=
  ⟨n.clause_id, [n.clause_id], (1, 1), [⟨"title_exact", (1, 1)⟩], false⟩

/-! ### Concrete instances used by the claim theorems -/

/-- C2 counterexample input: a heading whose title `???` normalises to the
empty match key. -/
def qBlocks : List Block := [⟨"paragraph", "1. ???"⟩]

/-- C2 witness input: two ordinary headed clauses. -/
def payBlocks : List Block := [⟨"paragraph", "1. Payment"⟩, ⟨"paragraph", "2. Delivery"⟩]

/-- C3 counterexample input: two clauses defining the same term `X`. -/
def xBlocks : List Block :=
  [⟨"paragraph", "\"X\" means foo"⟩, ⟨"paragraph", "\"X\" means bar"⟩]

/-- C5 witness: the old-tree clause, bag vector `{x:1, y:1}`. -/
def c5a : ClauseNode := ⟨"a-1", "section", "alpha", "alpha", "x y", tokenize_legal "x y"⟩

/-- C5 witness: a new-tree clause with bag vector
`{z:7, w:5, v:5, x:10, y:1}`, giving cosine `11/√400 = 0.55` exactly
against `c5a` (squared: `121/400`). -/
def c5b : ClauseNode :=
  ⟨"b-1", "section", "beta", "beta",
    "z z z z z z z w w w w w v v v v v x x x x x x x x x x y",
    tokenize_legal "z z z z z z z w w w w w v v v v v x x x x x x x x x x y"⟩

/-- C5 witness: a new-tree clause with cosine `1/√8 ≈ 0.354 < 0.55`
against `c5a` (squared: `1/8`). -/
def c5b' : ClauseNode := ⟨"b-2", "section", "beta", "beta", "x z w v", tokenize_legal "x z w v"⟩

/-- C6 concrete before text. -/
def sellerBefore : String := "The Seller may terminate this Agreement."

/-- C6 concrete after text. -/
def sellerAfter : String := "The Seller shall terminate this Agreement."

/-- C9 boundary input: one insertion of 41 words. -/
def cs41 : ChangeSet :=
  ⟨"c41", "", "", [⟨"", joinSpace (List.replicate 41 "w"), none, none⟩], [], [], []⟩

/-- C9 boundary input: one insertion of 40 words. -/
def cs40 : ChangeSet :=
  ⟨"c40", "", "", [⟨"", joinSpace (List.replicate 40 "w"), none, none⟩], [], [], []⟩

/-! ## Theorems -/

/-- Per-opcode shape of `_diff_tokens`' three span lists: insertion and
substitution spans record after-side token ranges, deletion spans record
before-side token ranges, and each span's text is the space-join of the
corresponding slice. -/
theorem diffTokensGo_spec (before after : List String)
    (ops : List (String × Nat × Nat × Nat × Nat)) :
    ((diffTokensGo before after ops).1.Forall fun sp => ∃ s e,
        sp.token_start = some s ∧ sp.token_end = some e ∧ sp.before = "" ∧
        sp.after = joinSpace (listSlice after s e)) ∧
    ((diffTokensGo before after ops).2.1.Forall fun sp => ∃ s e,
        sp.token_start = some s ∧ sp.token_end = some e ∧ sp.after = "" ∧
        sp.before = joinSpace (listSlice before s e)) ∧
    ((diffTokensGo before after ops).2.2.Forall fun sp => ∃ s e,
        sp.token_start = some s ∧ sp.token_end = some e ∧
        sp.after = joinSpace (listSlice after s e) ∧
        ∃ s2 e2, sp.before = joinSpace (listSlice before s2 e2)) := by
  induction ops with
  | nil => exact ⟨trivial, trivial, trivial⟩
  | cons op rest ih =>
      obtain ⟨tag, a0, a1, b0, b1⟩ := op
      obtain ⟨ih1, ih2, ih3⟩ := ih
      by_cases h1 : tag = "insert"
      · refine ⟨?_, ?_, ?_⟩ <;> simp only [diffTokensGo, if_pos h1]
        · exact List.forall_cons _ _ _ |>.mpr ⟨⟨b0, b1, rfl, rfl, rfl, rfl⟩, ih1⟩
        · exact ih2
        · exact ih3
      · by_cases h2 : tag = "delete"
        · refine ⟨?_, ?_, ?_⟩ <;> simp only [diffTokensGo, if_neg h1, if_pos h2]
          · exact ih1
          · exact List.forall_cons _ _ _ |>.mpr ⟨⟨a0, a1, rfl, rfl, rfl, rfl⟩, ih2⟩
          · exact ih3
        · by_cases h3 : tag = "replace"
          · refine ⟨?_, ?_, ?_⟩ <;>
              simp only [diffTokensGo, if_neg h1, if_neg h2, if_pos h3]
            · exact ih1
            · exact ih2
            · exact List.forall_cons _ _ _ |>.mpr ⟨⟨b0, b1, rfl, rfl, rfl, a0, a1, rfl⟩, ih3⟩
          · refine ⟨?_, ?_, ?_⟩ <;>
              simp only [diffTokensGo, if_neg h1, if_neg h2, if_neg h3]
            · exact ih1
            · exact ih2
            · exact ih3

/-- C10: for every (before, after) text pair, the substitution spans of
`diff_clause` carry `token_start`/`token_end` offsets into the *after* token
sequence (their `after` text is the join of that after-slice), insertion
spans carry after-sequence offsets, and deletion spans carry
before-sequence offsets (their `before` text is the join of that
before-slice). -/
theorem claim_C10 (before_text after_text : String) :
    ((diff_clause before_text after_text).insertions.Forall fun sp => ∃ s e,
        sp.token_start = some s ∧ sp.token_end = some e ∧ sp.before = "" ∧
        sp.after = joinSpace (listSlice (tokenize_legal after_text) s e)) ∧
    ((diff_clause before_text after_text).deletions.Forall fun sp => ∃ s e,
        sp.token_start = some s ∧ sp.token_end = some e ∧ sp.after = "" ∧
        sp.before = joinSpace (listSlice (tokenize_legal before_text) s e)) ∧
    ((diff_clause before_text after_text).substitutions.Forall fun sp => ∃ s e,
        sp.token_start = some s ∧ sp.token_end = some e ∧
        sp.after = joinSpace (listSlice (tokenize_legal after_text) s e) ∧
        ∃ s2 e2, sp.before = joinSpace (listSlice (tokenize_legal before_text) s2 e2)) := by
  have h := diffTokensGo_spec (tokenize_legal before_text) (tokenize_legal after_text)
    (getOpcodes (fun _ => false) (tokenize_legal before_text) (tokenize_legal after_text))
  simpa only [diff_clause, diffTokens] using h

/-- C9: the integrity scanner factors through its per-`ChangeSet` loop body;
for a single `ChangeSet` it emits a `"large_untracked_change"` alert iff the
combined word count of all insertion after-texts plus all deletion
before-texts is strictly greater than 40; a combined count of 41 triggers
the alert and a count of 40 does not. -/
theorem claim_C9 :
    (∀ cs : List ChangeSet,
      detect_integrity cs = cs.flatMap fun c => detect_integrity [c]) ∧
    (∀ c : ChangeSet,
      (∃ al ∈ detect_integrity [c], al.alert_type = "large_untracked_change") ↔
        40 < integrityWordCount c) ∧
    detect_integrity [cs41] =
      [⟨"c41", "large_untracked_change",
        "Large insertion/deletion without explicit tracking metadata"⟩] ∧
    detect_integrity [cs40] = [] := by
  refine ⟨?_, ?_, by decide, by decide⟩
  · intro cs
    simp [detect_integrity]
  · intro c
    unfold detect_integrity
    simp only [List.flatMap_cons, List.flatMap_nil, List.append_nil]
    by_cases h : 40 < integrityWordCount c
    · simp only [if_pos h]
      refine iff_of_true ⟨_, List.mem_append_left _ (List.mem_singleton_self _), rfl⟩ h
    · simp only [if_neg h]
      refine iff_of_false ?_ h
      rintro ⟨al, hal, hty⟩
      rw [List.nil_append] at hal
      by_cases hm : c.moved_blocks ≠ []
      · rw [if_pos hm] at hal
        rw [List.mem_singleton] at hal
        subst hal
        simp at hty
      · rw [if_neg hm] at hal
        exact absurd hal (List.not_mem_nil al)

/-- `filterMap` with a guard-shaped body is `filter` followed by `map`. -/
theorem filterMap_guard {α β : Type} (p : α → Bool) (f : α → β) (l : List α) :
    l.filterMap (fun x => if p x then some (f x) else none) = (l.filter p).map f := by
  induction l with
  | nil => rfl
  | cons x xs ih =>
      by_cases h : p x <;> simp [List.filterMap_cons, List.filter_cons, h, ih]

/-- C6: the modal-shift detector emits (in table order) exactly one
high-severity "Obligation Strength" finding for each `(from, to, rationale)`
entry of `MODAL_SHIFTS` such that the lowercased before text contains the
from-modal as a whole word, the lowercased after text contains the to-modal,
and the after text no longer contains the from-modal; in particular the
seller may→shall example yields exactly one finding, category
"Obligation Strength", severity "high". -/
theorem claim_C6 :
    (∀ before after : String,
      findModalShift before after =
        (MODAL_SHIFTS.filter fun t =>
          hasModal (lowStr before) t.1 && hasModal (lowStr after) t.2.1
            && !(hasModal (lowStr after) t.1)).map
          fun t => ⟨"", "Obligation Strength", "high", t.2.2, ⟨before, after, none, none⟩⟩) ∧
    findModalShift sellerBefore sellerAfter =
      [⟨"", "Obligation Strength", "high", "Obligation strengthened",
        ⟨sellerBefore, sellerAfter, none, none⟩⟩] := by
  refine ⟨fun before after => filterMap_guard _ _ _, by decide⟩

/-- `segFlush` preserves the invariant that the collected defined terms are
exactly the per-clause extractions of the non-table children, provided any
open heading's type is not `"table"` (which `segStep` guarantees). -/
theorem segFlush_inv (st : SegState)
    (h : st.terms = st.children.filterMap fun n =>
        if n.type = "table" then none else extractDefinedTerm n)
    (hc : ∀ lab ty, st.current = some (lab, ty) → ty ≠ "table") :
    ((segFlush st).terms = (segFlush st).children.filterMap fun n =>
        if n.type = "table" then none else extractDefinedTerm n) ∧
    (∀ lab ty, (segFlush st).current = some (lab, ty) → ty ≠ "table") := by
  unfold segFlush
  cases hcur : st.current with
  | none => exact ⟨h, fun lab ty hh => hc lab ty (hcur ▸ hh)⟩
  | some p =>
      obtain ⟨lab₀, ty₀⟩ := p
      have hty : ty₀ ≠ "table" := hc lab₀ ty₀ hcur
      by_cases hb : pyStrip st.buffer ≠ ""
      · simp only [if_pos hb]
        constructor
        · have htype : (mkClauseNode (st.idx + 1) lab₀ (pyStrip st.buffer) ty₀).type = ty₀ := rfl
          rw [List.filterMap_append, ← h]
          simp only [List.filterMap_cons, List.filterMap_nil, htype, if_neg hty]
          unfold extractInto
          cases hx : extractDefinedTerm (mkClauseNode (st.idx + 1) lab₀ (pyStrip st.buffer) ty₀) with
          | none => simp [hx]
          | some t => simp [hx]
        · intro lab ty hh
          simp at hh
      · simp only [if_neg hb]
        exact ⟨h, fun lab ty hh => hc lab ty (hcur ▸ hh)⟩

/-- `segStep` preserves the same invariant. -/
theorem segStep_inv (st : SegState) (b : Block)
    (h : st.terms = st.children.filterMap fun n =>
        if n.type = "table" then none else extractDefinedTerm n)
    (hc : ∀ lab ty, st.current = some (lab, ty) → ty ≠ "table") :
    ((segStep st b).terms = (segStep st b).children.filterMap fun n =>
        if n.type = "table" then none else extractDefinedTerm n) ∧
    (∀ lab ty, (segStep st b).current = some (lab, ty) → ty ≠ "table") := by
  unfold segStep
  by_cases hempty : b.text = ""
  · simp only [if_pos hempty]
    exact ⟨h, hc⟩
  · simp only [if_neg hempty]
    cases hm : headingMatch b.text with
    | some p =>
        obtain ⟨label, heading⟩ := p
        obtain ⟨hf1, _⟩ := segFlush_inv st h hc
        refine ⟨hf1, ?_⟩
        intro lab ty hh
        simp only [Option.some.injEq, Prod.mk.injEq] at hh
        rcases hh with ⟨_, hty⟩
        subst hty
        by_cases hd : "definitions".data.isPrefixOf (lowStr heading).data <;> simp [hd]
    | none =>
        by_cases ht : "table".data.isPrefixOf b.block_type.data
        · simp only [if_pos ht]
          cases hcur : st.current with
          | some _ => exact ⟨h, fun lab ty hh => hc lab ty (hcur ▸ hh)⟩
          | none =>
              constructor
              · have htype : (mkClauseNode (st.idx + 1) "table" b.text "table").type = "table" := rfl
                rw [List.filterMap_append, ← h]
                simp [List.filterMap_cons, htype]
              · intro lab ty hh
                simp only at hh
                exact hc lab ty (hcur ▸ hh)
        · simp only [if_neg ht]
          cases hcur : st.current with
          | some _ => exact ⟨h, fun lab ty hh => hc lab ty (hcur ▸ hh)⟩
          | none =>
              constructor
              · have htype : (mkClauseNode (st.idx + 1) "section" b.text "section").type = "section" := rfl
                rw [List.filterMap_append, ← h]
                simp only [List.filterMap_cons, List.filterMap_nil, htype]
                rw [if_neg (by decide : ¬ ("section" : String) = "table")]
                unfold extractInto
                cases hx : extractDefinedTerm (mkClauseNode (st.idx + 1) "section" b.text "section") with
                | none => simp [hx]
                | some t => simp [hx]
              · intro lab ty hh
                simp only at hh
                exact hc lab ty (hcur ▸ hh)

/-- C3 amended: `build_clause_tree` keeps every extracted definition — its
`defined_terms` list is exactly one entry per non-table clause whose text
matches the definition pattern, in document order.  In particular a
redefinition of a term appends a second entry rather than overwriting the
first. -/
theorem claim_C3_amended (blocks : List Block) :
    (build_clause_tree blocks).defined_terms =
      (build_clause_tree blocks).children.filterMap fun n =>
        if n.type = "table" then none else extractDefinedTerm n := by
  suffices h : ∀ (bs : List Block) (st : SegState),
      (st.terms = st.children.filterMap fun n =>
        if n.type = "table" then none else extractDefinedTerm n) →
      (∀ lab ty, st.current = some (lab, ty) → ty ≠ "table") →
      ((bs.foldl segStep st).terms = (bs.foldl segStep st).children.filterMap fun n =>
        if n.type = "table" then none else extractDefinedTerm n) ∧
      (∀ lab ty, (bs.foldl segStep st).current = some (lab, ty) → ty ≠ "table") by
    have hfold := h blocks ⟨0, none, "", [], []⟩ rfl (by intro lab ty hh; simp at hh)
    exact (segFlush_inv _ hfold.1 hfold.2).1
  intro bs
  induction bs with
  | nil => exact fun st h1 h2 => ⟨h1, h2⟩
  | cons b rest ih =>
      intro st h1 h2
      obtain ⟨g1, g2⟩ := segStep_inv st b h1 h2
      exact ih _ g1 g2

/-- C3 fails on the code as stated: two clauses defining the same term `X`
produce *two* `DefinedTerm` entries (the earlier one is kept, nothing is
overwritten), so `defined_terms` does not contain at most one entry per term
string. -/
theorem claim_C3_counterexample :
    (build_clause_tree xBlocks).defined_terms =
      [⟨"X", "clause-1", "foo"⟩, ⟨"X", "clause-2", "bar"⟩] ∧
    ¬ (build_clause_tree xBlocks).defined_terms.Pairwise
        (fun t1 t2 => t1.term ≠ t2.term) := by
  exact ⟨by decide, by decide⟩

/-- C7, counterexample to the claim as stated: the claim says the classifier
extracts the modal-verb set of each side and reports whether it changed, but
`risk_tag_clause` returns no modal sets and no modal-changed flag.  For
before = "The Seller may act." and after = "The Seller will act." the modal
set changes from {may} to {will}, yet — because (may, will) is absent from
`OBLIGATION_SHIFT_MAP` — the returned tag is byte-for-byte identical to the
one for a modal-free pair whose modal set did not change, so no part of the
output reports the modal change. -/
theorem claim_C7_counterexample :
    risk_tag_clause ⟨"c1", "h", "The Seller may act.", "The Seller will act."⟩ =
      risk_tag_clause ⟨"c1", "h", "The Seller acts.", "The Seller acts."⟩ ∧
    tokenize_modal "The Seller may act." = ["may"] ∧
    tokenize_modal "The Seller will act." = ["will"] ∧
    sameSet (tokenize_modal "The Seller may act.")
      (tokenize_modal "The Seller will act.") = false ∧
    sameSet (tokenize_modal "The Seller acts.")
      (tokenize_modal "The Seller acts.") = true ∧
    (risk_tag_clause ⟨"c1", "h", "The Seller may act.", "The Seller will act."⟩).risk_tags
      = [] := by
  exact ⟨by decide, by decide, by decide, by decide, by decide, by decide⟩

/-- C7, amended: the companion summary classifier reports, for each clause
pair, the (sorted) numeric set and date set of each side with a `changed`
flag that is exactly set inequality of the two sides, and its obligation
shifts are exactly the pairs of a before-modal and a distinct after-modal
present in the fixed shift map; it reports nothing else about the modal
sets (the modal/number/date extractors are the spec-modelled `utils`
helpers, absent from the source tree). -/
theorem claim_C7_amended (mc : ModifiedClause) :
    ((risk_tag_clause mc).numeric =
      ⟨sortStrings (extract_numbers mc.before), sortStrings (extract_numbers mc.after),
        !(sameSet (extract_numbers mc.before) (extract_numbers mc.after))⟩) ∧
    ((risk_tag_clause mc).dates =
      ⟨sortStrings (extract_dates mc.before), sortStrings (extract_dates mc.after),
        !(sameSet (extract_dates mc.before) (extract_dates mc.after))⟩) ∧
    ((risk_tag_clause mc).id = mc.id) ∧
    ((risk_tag_clause mc).heading = mc.heading) ∧
    (∀ f t r, (⟨f, t, r⟩ : ObligationShift) ∈ (risk_tag_clause mc).obligation_shifts ↔
      f ∈ tokenize_modal mc.before ∧ t ∈ tokenize_modal mc.after ∧ f ≠ t ∧
        shiftLookup (f, t) = some r) := by
  refine ⟨rfl, rfl, rfl, rfl, ?_⟩
  intro f t r
  show (⟨f, t, r⟩ : ObligationShift) ∈ detect_obligation_shift mc.before mc.after ↔ _
  unfold detect_obligation_shift
  rw [List.mem_flatMap]
  constructor
  · rintro ⟨b, hb, hmem⟩
    rw [List.mem_filterMap] at hmem
    obtain ⟨a, ha, hsome⟩ := hmem
    by_cases hne : b ≠ a
    · rw [if_pos hne] at hsome
      cases hl : shiftLookup (b, a) with
      | none => rw [hl] at hsome; exact absurd hsome (by simp)
      | some r0 =>
          rw [hl] at hsome
          simp only [Option.some.injEq, ObligationShift.mk.injEq] at hsome
          obtain ⟨h1, h2, h3⟩ := hsome
          subst h1; subst h2; subst h3
          exact ⟨hb, ha, hne, hl⟩
    · rw [if_neg hne] at hsome
      exact absurd hsome (by simp)
  · rintro ⟨hf, ht, hne, hlook⟩
    exact ⟨f, hf, List.mem_filterMap.mpr ⟨t, ht, by rw [if_pos hne, hlook]⟩⟩

/-- The stable descending sort is a permutation of its input. -/
theorem sortImpacted_perm (l : List ImpactedClause) : (sortImpacted l).Perm l :=
  List.perm_insertionSort _ l

/-- The stable descending sort is sorted by non-increasing score. -/
theorem sortImpacted_sorted (l : List ImpactedClause) :
    (sortImpacted l).Pairwise fun u v => v.importance_score ≤ u.importance_score := by
  haveI : IsTotal ImpactedClause (fun u v => v.importance_score ≤ u.importance_score) :=
    ⟨fun a b => le_total b.importance_score a.importance_score⟩
  haveI : IsTrans ImpactedClause (fun u v => v.importance_score ≤ u.importance_score) :=
    ⟨fun a b c h1 h2 => le_trans h2 h1⟩
  exact List.sorted_insertionSort _ l

/-- Inserting into the descending order keeps each score level's sublist:
the elements passed over are exactly those with a strictly larger score. -/
theorem orderedInsert_filter_score (q : ℚ) (x : ImpactedClause) (l : List ImpactedClause) :
    (List.orderedInsert (fun u v => v.importance_score ≤ u.importance_score) x l).filter
        (fun ic => ic.importance_score = q) =
      if x.importance_score = q then
        x :: l.filter (fun ic => ic.importance_score = q)
      else l.filter (fun ic => ic.importance_score = q) := by
  rw [List.orderedInsert_eq_take_drop, List.filter_append, List.filter_cons]
  by_cases hq : x.importance_score = q
  · rw [if_pos hq]
    have htake : (List.takeWhile
        (fun b => decide ¬ (fun u v => v.importance_score ≤ u.importance_score) x b) l).filter
          (fun ic => ic.importance_score = q) = [] := by
      rw [List.filter_eq_nil_iff]
      intro b hb
      have hgt := List.mem_takeWhile_imp hb
      simp only [decide_not, Bool.not_eq_true', decide_eq_false_iff_not] at hgt
      simp only [decide_eq_true_eq]
      intro hbq
      exact hgt (le_of_eq (by rw [hbq, hq]))
    rw [htake, if_pos (by simpa using hq), List.nil_append]
    have hl : l.filter (fun ic => ic.importance_score = q) =
        (List.takeWhile
          (fun b => decide ¬ (fun u v => v.importance_score ≤ u.importance_score) x b) l).filter
            (fun ic => ic.importance_score = q) ++
        (List.dropWhile
          (fun b => decide ¬ (fun u v => v.importance_score ≤ u.importance_score) x b) l).filter
            (fun ic => ic.importance_score = q) := by
      rw [← List.filter_append, List.takeWhile_append_dropWhile]
    rw [hl, htake, List.nil_append]
  · rw [if_neg hq, if_neg (by simpa using hq)]
    rw [← List.filter_append, List.takeWhile_append_dropWhile]

/-- Stability of the descending sort, in filter form: every score level's
sublist is exactly the input's sublist at that score, so numeric ties keep
their encounter order. -/
theorem sortImpacted_filter (q : ℚ) (l : List ImpactedClause) :
    (sortImpacted l).filter (fun ic => ic.importance_score = q) =
      l.filter (fun ic => ic.importance_score = q) := by
  induction l with
  | nil => rfl
  | cons x xs ih =>
      show (List.orderedInsert _ x (List.insertionSort _ xs)).filter _ = _
      rw [orderedInsert_filter_score, List.filter_cons]
      by_cases h : x.importance_score = q
      · rw [if_pos h, if_pos (by simpa using h)]
        exact congrArg (x :: ·) ih
      · rw [if_neg h, if_neg (by simpa using h)]
        exact ih

/-- C8: for each definition change (in order), the emitted `ImpactReport`
carries the changed term and its before/after definition text, and its
affected-clause list is a permutation of the term's usage entries (one per
clause whose text contains the term, importance score = the raw occurrence
count), sorted by non-increasing score, with every score level keeping the
encounter order of the usage index (stability — ties preserve order). -/
theorem claim_C8 (clauses : List ClauseNode) (terms : List DefinedTerm)
    (changes : List DefChange) :
    List.Forall₂ (fun c r =>
      r.term_changed = c.term ∧
      r.definition_diff = ⟨c.before, c.after, none, none⟩ ∧
      r.affected_clauses.Perm ((usageFor (build_term_index clauses terms) c.term).map
        fun u => (⟨u.clause_id, (u.count : ℚ)⟩ : ImpactedClause)) ∧
      r.affected_clauses.Pairwise (fun u v => v.importance_score ≤ u.importance_score) ∧
      (∀ q : ℚ, r.affected_clauses.filter (fun ic => ic.importance_score = q) =
        ((usageFor (build_term_index clauses terms) c.term).map
          fun u => (⟨u.clause_id, (u.count : ℚ)⟩ : ImpactedClause)).filter
            (fun ic => ic.importance_score = q)) ∧
      (∀ ic ∈ r.affected_clauses, ∃ u ∈ build_term_index clauses terms,
        u.term = c.term ∧ ic = ⟨u.clause_id, (u.count : ℚ)⟩))
      changes (build_impact_reports changes (build_term_index clauses terms)) := by
  unfold build_impact_reports
  induction changes with
  | nil => exact List.Forall₂.nil
  | cons c cs ih =>
      rw [List.map_cons]
      refine List.Forall₂.cons ?_ ih
      refine ⟨rfl, rfl, sortImpacted_perm _, sortImpacted_sorted _,
        fun q => sortImpacted_filter q _, ?_⟩
      intro ic hic
      have hmem := (sortImpacted_perm _).mem_iff.mp hic
      rw [List.mem_map] at hmem
      obtain ⟨u, hu, hicu⟩ := hmem
      have hu' := List.mem_filter.mp hu
      exact ⟨u, hu'.1, by simpa using hu'.2, hicu.symm⟩

/-- Reflexivity of the cross-multiplication `≤`. -/
theorem fracLe_refl (a : Frac) : fracLe a a = true := by
  simp [fracLe, Nat.mul_comm]

/-- Strict implies non-strict. -/
theorem fracLe_of_fracLt {a b : Frac} (h : fracLt a b = true) : fracLe a b = true := by
  simp only [fracLt, decide_eq_true_eq] at h
  simp only [fracLe, decide_eq_true_eq]
  exact Nat.le_of_lt h

/-- A failed strict comparison is the reverse non-strict comparison. -/
theorem fracLe_of_not_fracLt {a b : Frac} (h : ¬ fracLt a b = true) : fracLe b a = true := by
  simp only [fracLt, decide_eq_true_eq, not_lt] at h
  simpa [fracLe] using h

/-- Transitivity of the cross-multiplication `≤` through a value with a
positive denominator. -/
theorem fracLe_trans {a b c : Frac} (hb : 0 < b.2)
    (h1 : fracLe a b = true) (h2 : fracLe b c = true) : fracLe a c = true := by
  simp only [fracLe, decide_eq_true_eq] at h1 h2 ⊢
  have k1 : a.1 * c.2 * b.2 ≤ c.1 * a.2 * b.2 := by
    calc a.1 * c.2 * b.2 = a.1 * b.2 * c.2 := by ring
    _ ≤ b.1 * a.2 * c.2 := Nat.mul_le_mul_right _ h1
    _ = b.1 * c.2 * a.2 := by ring
    _ ≤ c.1 * b.2 * a.2 := Nat.mul_le_mul_right _ h2
    _ = c.1 * a.2 * b.2 := by ring
  exact Nat.le_of_mul_le_mul_right k1 hb

/-- The squared cosine always has a positive denominator. -/
theorem cosineSq_den_pos (u v : List (String × Nat)) : 0 < (cosineSq u v).2 := by
  unfold cosineSq
  by_cases h1 : u = [] ∨ v = []
  · simp [h1]
  · rw [if_neg h1]
    by_cases h2 : bagNormSq u ≠ 0 ∧ bagNormSq v ≠ 0
    · rw [if_pos h2]
      exact Nat.mul_pos (Nat.pos_of_ne_zero h2.1) (Nat.pos_of_ne_zero h2.2)
    · rw [if_neg h2]
      exact Nat.one_pos

/-- Stage 1 only ever binds an unused clause. -/
theorem stage1Pick_not_used {bs : List ClauseNode} {used : List String} {a m : ClauseNode}
    (h : stage1Pick bs used a = some m) : m.clause_id ∉ used := by
  unfold stage1Pick at h
  by_cases hk : matchKey a = ""
  · rw [if_pos hk] at h
    exact absurd h (by simp)
  · rw [if_neg hk] at h
    have := List.find?_some h
    simpa using this

/-- The best-candidate scan either keeps its accumulator or returns an
unused clause of the list together with its score. -/
theorem bestScan_go (f : ClauseNode → Frac) (used : List String) :
    ∀ (bs : List ClauseNode) (acc : Frac × Option ClauseNode) (n : ClauseNode),
      (bs.foldl (fun best b =>
        if b.clause_id ∈ used then best
        else if fracLt best.1 (f b) then (f b, some b) else best) acc).2 = some n →
      (acc.2 = some n ∧ (bs.foldl (fun best b =>
        if b.clause_id ∈ used then best
        else if fracLt best.1 (f b) then (f b, some b) else best) acc).1 = acc.1) ∨
      (n ∈ bs ∧ n.clause_id ∉ used ∧ (bs.foldl (fun best b =>
        if b.clause_id ∈ used then best
        else if fracLt best.1 (f b) then (f b, some b) else best) acc).1 = f n) := by
  intro bs
  induction bs with
  | nil => intro acc n h; exact Or.inl ⟨h, rfl⟩
  | cons b rest ih =>
      intro acc n h
      rw [List.foldl_cons] at h ⊢
      by_cases hu : b.clause_id ∈ used
      · rw [if_pos hu] at h ⊢
        rcases ih acc n h with h' | h'
        · exact Or.inl h'
        · exact Or.inr ⟨List.mem_cons_of_mem _ h'.1, h'.2⟩
      · rw [if_neg hu] at h ⊢
        by_cases hlt : fracLt acc.1 (f b) = true
        · rw [if_pos hlt] at h ⊢
          rcases ih (f b, some b) n h with h' | h'
          · have hn : b = n := by simpa using h'.1
            subst hn
            exact Or.inr ⟨List.mem_cons_self _ _, hu, h'.2⟩
          · exact Or.inr ⟨List.mem_cons_of_mem _ h'.1, h'.2⟩
        · rw [if_neg hlt] at h ⊢
          rcases ih acc n h with h' | h'
          · exact Or.inl h'
          · exact Or.inr ⟨List.mem_cons_of_mem _ h'.1, h'.2⟩

/-- `bestScan` from the empty accumulator: a returned clause is an unused
member of the list and the returned score is its score. -/
theorem bestScan_some {f : ClauseNode → Frac} {used : List String} {bs : List ClauseNode}
    {n : ClauseNode} (h : (bestScan f used bs).2 = some n) :
    n ∈ bs ∧ n.clause_id ∉ used ∧ (bestScan f used bs).1 = f n := by
  rcases bestScan_go f used bs ((0, 1), none) n h with h' | h'
  · exact absurd h'.1 (by simp)
  · exact h'

/-- Stage 2 only ever binds an unused clause. -/
theorem stage2Pick_not_used {bs : List ClauseNode} {used : List String} {a : ClauseNode}
    {p : ClauseNode × Frac} (h : stage2Pick bs used a = some p) : p.1.clause_id ∉ used := by
  unfold stage2Pick at h
  dsimp only at h
  cases hb : (bestScan (stage2Score a) used bs).2 with
  | none => rw [hb] at h; exact absurd h (by simp)
  | some n =>
      rw [hb] at h
      dsimp only at h
      by_cases hge : fracLe (7, 10) (bestScan (stage2Score a) used bs).1 = true
      · rw [if_pos hge] at h
        injection h with h'
        rw [← h']
        exact (bestScan_some hb).2.1
      · rw [if_neg hge] at h
        exact absurd h (by simp)

/-- Stage 3 only ever binds an unused clause. -/
theorem stage3Pick_not_used {bs : List ClauseNode} {used : List String} {a : ClauseNode}
    {p : ClauseNode × Frac} (h : stage3Pick bs used a = some p) : p.1.clause_id ∉ used := by
  unfold stage3Pick at h
  dsimp only at h
  cases hb : (bestScan (fun b => cosineSq (bagVector (joinSpace a.text_tokens))
      (bagVector (joinSpace b.text_tokens))) used bs).2 with
  | none => rw [hb] at h; exact absurd h (by simp)
  | some n =>
      rw [hb] at h
      dsimp only at h
      by_cases hge : fracLe cosineGate (bestScan (fun b => cosineSq
          (bagVector (joinSpace a.text_tokens)) (bagVector (joinSpace b.text_tokens)))
          used bs).1 = true
      · rw [if_pos hge] at h
        injection h with h'
        rw [← h']
        exact (bestScan_some hb).2.1
      · rw [if_neg hge] at h
        exact absurd h (by simp)

/-- Stage 4 candidates are unused. -/
theorem stage4Candidates_not_used {bs : List ClauseNode} {used : List String} {a : ClauseNode}
    {p : Frac × ClauseNode} (h : p ∈ stage4Candidates bs used a) : p.2.clause_id ∉ used := by
  unfold stage4Candidates at h
  rw [List.mem_filterMap] at h
  obtain ⟨b, -, hbody⟩ := h
  by_cases hu : b.clause_id ∈ used
  · rw [if_pos hu] at hbody
    exact absurd hbody (by simp)
  · rw [if_neg hu] at hbody
    by_cases hg : fracLe splitGate (cosineSq (bagVector (joinSpace a.text_tokens))
        (bagVector (joinSpace b.text_tokens))) = true
    · rw [if_pos hg] at hbody
      injection hbody with h'
      rw [← h']
      exact hu
    · rw [if_neg hg] at hbody
      exact absurd hbody (by simp)

/-- Sorting stage-4 candidates does not change membership. -/
theorem sortCandidates_mem {l : List (Frac × ClauseNode)} {x : Frac × ClauseNode}
    (h : x ∈ sortCandidates l) : x ∈ l :=
  (List.perm_insertionSort _ l).mem_iff.mp h

/-- The single-target entry's target list. -/
theorem singleTargetEntry_ids (a m : ClauseNode) (rs : List AlignmentReason) :
    (singleTargetEntry a m rs).new_clause_ids = [m.clause_id] := rfl

/-- One aligner step appends exactly one entry; its targets lie outside the
incoming used set, and the outgoing used set is the incoming one plus those
targets. -/
theorem alignStep_spec (bs : List ClauseNode) (used : List String)
    (entries : List AlignmentEntry) (a : ClauseNode) :
    ∃ e : AlignmentEntry,
      alignStep bs (used, entries) a = (used ++ e.new_clause_ids, entries ++ [e]) ∧
      ∀ id ∈ e.new_clause_ids, id ∉ used := by
  unfold alignStep
  dsimp only
  cases h1 : stage1Pick bs used a with
  | some m =>
      refine ⟨singleTargetEntry a m [⟨"title_exact", (1, 1)⟩], rfl, ?_⟩
      intro id hid
      rw [singleTargetEntry_ids, List.mem_singleton] at hid
      subst hid
      exact stage1Pick_not_used h1
  | none =>
      cases h2 : stage2Pick bs used a with
      | some p =>
          refine ⟨singleTargetEntry a p.1 [⟨"label_or_heading_fuzzy", p.2⟩], rfl, ?_⟩
          intro id hid
          rw [singleTargetEntry_ids, List.mem_singleton] at hid
          subst hid
          exact stage2Pick_not_used h2
      | none =>
          cases h3 : stage3Pick bs used a with
          | some p =>
              refine ⟨singleTargetEntry a p.1 [⟨"semantic_cosine", p.2⟩], rfl, ?_⟩
              intro id hid
              rw [singleTargetEntry_ids, List.mem_singleton] at hid
              subst hid
              exact stage3Pick_not_used h3
          | none =>
              cases h4 : sortCandidates (stage4Candidates bs used a) with
              | nil =>
                  refine ⟨⟨a.clause_id, [], (0, 1), [], false⟩, ?_, ?_⟩
                  · simp
                  · intro id hid
                    exact absurd hid (by simp)
              | cons c rest =>
                  refine ⟨⟨a.clause_id, ((c :: rest).take 2).map (fun p => p.2.clause_id),
                    c.1, [⟨"split_merge", c.1⟩], false⟩, rfl, ?_⟩
                  intro id hid
                  rw [List.mem_map] at hid
                  obtain ⟨p, hp, hpid⟩ := hid
                  have hmem : p ∈ sortCandidates (stage4Candidates bs used a) := by
                    rw [h4]
                    exact List.mem_of_mem_take hp
                  subst hpid
                  exact stage4Candidates_not_used (sortCandidates_mem hmem)

/-- C1: in the map produced by the aligner, no new-tree clause id appears in
the target lists of two different entries — the strong form including
split/merge entries, which the shared `used` set enforces. -/
theorem claim_C1 (aNodes bNodes : List ClauseNode) :
    (alignNodes aNodes bNodes).entries.Pairwise
      (fun e₁ e₂ => ∀ id ∈ e₁.new_clause_ids, id ∉ e₂.new_clause_ids) := by
  suffices h : ∀ (as : List ClauseNode) (used : List String) (entries : List AlignmentEntry),
      (∀ e ∈ entries, ∀ id ∈ e.new_clause_ids, id ∈ used) →
      entries.Pairwise (fun e₁ e₂ => ∀ id ∈ e₁.new_clause_ids, id ∉ e₂.new_clause_ids) →
      (as.foldl (alignStep bNodes) (used, entries)).2.Pairwise
        (fun e₁ e₂ => ∀ id ∈ e₁.new_clause_ids, id ∉ e₂.new_clause_ids) by
    exact h aNodes [] [] (by simp) List.Pairwise.nil
  intro as
  induction as with
  | nil => exact fun used entries _ h2 => h2
  | cons a rest ih =>
      intro used entries h1 h2
      rw [List.foldl_cons]
      obtain ⟨e, heq, hfresh⟩ := alignStep_spec bNodes used entries a
      rw [heq]
      apply ih
      · intro e' he' id hid
        rcases List.mem_append.mp he' with h | h
        · exact List.mem_append_left _ (h1 e' h id hid)
        · rw [List.mem_singleton] at h
          subst h
          exact List.mem_append_right _ hid
      · rw [List.pairwise_append]
        refine ⟨h2, List.pairwise_singleton _ _, ?_⟩
        intro e₁ h₁ e₂ h₂' id hid
        rw [List.mem_singleton] at h₂'
        subst h₂'
        intro hid₂
        exact hfresh id hid₂ (h1 e₁ h₁ id hid)

/-- A strict comparison refutes the reverse non-strict one. -/
theorem fracLe_false_of_fracLt {a b : Frac} (h : fracLt a b = true) : fracLe b a = false := by
  simp only [fracLt, decide_eq_true_eq] at h
  simp only [fracLe, decide_eq_false_iff_not, not_le]
  exact h

/-- The best-candidate scan's score dominates the score of every unused
element, provided all scores have positive denominators. -/
theorem bestScan_ub (f : ClauseNode → Frac) (used : List String)
    (hden : ∀ b, 0 < (f b).2) :
    ∀ (bs : List ClauseNode) (acc : Frac × Option ClauseNode), 0 < acc.1.2 →
      0 < (bs.foldl (fun best b =>
        if b.clause_id ∈ used then best
        else if fracLt best.1 (f b) then (f b, some b) else best) acc).1.2 ∧
      fracLe acc.1 (bs.foldl (fun best b =>
        if b.clause_id ∈ used then best
        else if fracLt best.1 (f b) then (f b, some b) else best) acc).1 = true ∧
      ∀ b ∈ bs, b.clause_id ∉ used → fracLe (f b) (bs.foldl (fun best b =>
        if b.clause_id ∈ used then best
        else if fracLt best.1 (f b) then (f b, some b) else best) acc).1 = true := by
  intro bs
  induction bs with
  | nil =>
      intro acc hacc
      exact ⟨hacc, fracLe_refl _, by simp⟩
  | cons b rest ih =>
      intro acc hacc
      rw [List.foldl_cons]
      by_cases hu : b.clause_id ∈ used
      · rw [if_pos hu]
        obtain ⟨g1, g2, g3⟩ := ih acc hacc
        refine ⟨g1, g2, ?_⟩
        intro b' hb' hbu'
        rcases List.mem_cons.mp hb' with h | h
        · subst h
          exact absurd hu hbu'
        · exact g3 b' h hbu'
      · rw [if_neg hu]
        by_cases hlt : fracLt acc.1 (f b) = true
        · rw [if_pos hlt]
          obtain ⟨g1, g2, g3⟩ := ih (f b, some b) (hden b)
          refine ⟨g1, fracLe_trans (hden b) (fracLe_of_fracLt hlt) g2, ?_⟩
          intro b' hb' hbu'
          rcases List.mem_cons.mp hb' with h | h
          · subst h
            exact g2
          · exact g3 b' h hbu'
        · rw [if_neg hlt]
          obtain ⟨g1, g2, g3⟩ := ih acc hacc
          refine ⟨g1, g2, ?_⟩
          intro b' hb' hbu'
          rcases List.mem_cons.mp hb' with h | h
          · subst h
            exact fracLe_trans hacc (fracLe_of_not_fracLt hlt) g2
          · exact g3 b' h hbu'

/-- Once the scan has a candidate it never loses it. -/
theorem bestScan_stays_some (f : ClauseNode → Frac) (used : List String) :
    ∀ (bs : List ClauseNode) (acc : Frac × Option ClauseNode), acc.2.isSome →
      (bs.foldl (fun best b =>
        if b.clause_id ∈ used then best
        else if fracLt best.1 (f b) then (f b, some b) else best) acc).2.isSome := by
  intro bs
  induction bs with
  | nil => exact fun acc h => h
  | cons b rest ih =>
      intro acc h
      rw [List.foldl_cons]
      by_cases hu : b.clause_id ∈ used
      · rw [if_pos hu]; exact ih acc h
      · rw [if_neg hu]
        by_cases hlt : fracLt acc.1 (f b) = true
        · rw [if_pos hlt]; exact ih (f b, some b) rfl
        · rw [if_neg hlt]; exact ih acc h

/-- If the scan ends with no candidate, the accumulator never moved and
every unused element failed the strict comparison against it. -/
theorem bestScan_none_aux (f : ClauseNode → Frac) (used : List String) :
    ∀ (bs : List ClauseNode) (acc : Frac × Option ClauseNode),
      (bs.foldl (fun best b =>
        if b.clause_id ∈ used then best
        else if fracLt best.1 (f b) then (f b, some b) else best) acc).2 = none →
      (bs.foldl (fun best b =>
        if b.clause_id ∈ used then best
        else if fracLt best.1 (f b) then (f b, some b) else best) acc) = acc ∧
      ∀ b ∈ bs, b.clause_id ∉ used → fracLt acc.1 (f b) = false := by
  intro bs
  induction bs with
  | nil => exact fun acc _ => ⟨rfl, by simp⟩
  | cons b rest ih =>
      intro acc h
      rw [List.foldl_cons] at h ⊢
      by_cases hu : b.clause_id ∈ used
      · rw [if_pos hu] at h ⊢
        obtain ⟨g1, g2⟩ := ih acc h
        refine ⟨g1, ?_⟩
        intro b' hb' hbu'
        rcases List.mem_cons.mp hb' with hh | hh
        · subst hh; exact absurd hu hbu'
        · exact g2 b' hh hbu'
      · rw [if_neg hu] at h ⊢
        by_cases hlt : fracLt acc.1 (f b) = true
        · rw [if_pos hlt] at h
          have := bestScan_stays_some f used rest (f b, some b) rfl
          rw [h] at this
          exact absurd this (by simp)
        · rw [if_neg hlt] at h ⊢
          obtain ⟨g1, g2⟩ := ih acc h
          refine ⟨g1, ?_⟩
          intro b' hb' hbu'
          rcases List.mem_cons.mp hb' with hh | hh
          · subst hh; exact Bool.not_eq_true _ ▸ hlt
          · exact g2 b' hh hbu'

/-- C5: for an old-tree clause that stages 1 and 2 left unmatched, if the
maximum cosine similarity of its term-frequency vector over the unused
new-tree clauses is exactly `0.55` (squared cosine numerically `121/400`),
stage 3 matches it with method `semantic_cosine`; if every unused clause's
cosine is strictly below `0.55` (e.g. `0.549`), stage 3 does not match it
and the clause falls through to the split/merge stage. -/
theorem claim_C5 (a : ClauseNode) (used : List String) (bs : List ClauseNode)
    (E : List AlignmentEntry)
    (h1 : stage1Pick bs used a = none) (h2 : stage2Pick bs used a = none) :
    ((∃ b ∈ bs, b.clause_id ∉ used ∧
        (cosineSq (bagVector (joinSpace a.text_tokens))
          (bagVector (joinSpace b.text_tokens))).1 * 400 =
          121 * (cosineSq (bagVector (joinSpace a.text_tokens))
            (bagVector (joinSpace b.text_tokens))).2) ∧
      (∀ b ∈ bs, b.clause_id ∉ used →
        fracLe (cosineSq (bagVector (joinSpace a.text_tokens))
          (bagVector (joinSpace b.text_tokens))) cosineGate = true) →
      ∃ m s, stage3Pick bs used a = some (m, s) ∧ s.1 * 400 = 121 * s.2 ∧
        (alignStep bs (used, E) a).2 =
          E ++ [singleTargetEntry a m [⟨"semantic_cosine", s⟩]]) ∧
    ((∀ b ∈ bs, b.clause_id ∉ used →
        fracLt (cosineSq (bagVector (joinSpace a.text_tokens))
          (bagVector (joinSpace b.text_tokens))) cosineGate = true) →
      stage3Pick bs used a = none ∧
      ∃ e, (alignStep bs (used, E) a).2 = E ++ [e] ∧
        ∀ r ∈ e.reasons, r.method ≠ "semantic_cosine") := by
  constructor
  · rintro ⟨⟨b₀, hb₀, hbu₀, heq₀⟩, hub⟩
    have hposden : ∀ b : ClauseNode, 0 < (cosineSq (bagVector (joinSpace a.text_tokens))
        (bagVector (joinSpace b.text_tokens))).2 := fun b => cosineSq_den_pos _ _
    have hpos₀ : fracLt (0, 1) (cosineSq (bagVector (joinSpace a.text_tokens))
        (bagVector (joinSpace b₀.text_tokens))) = true := by
      simp only [fracLt, decide_eq_true_eq]
      have hd := cosineSq_den_pos (bagVector (joinSpace a.text_tokens))
        (bagVector (joinSpace b₀.text_tokens))
      have : 0 < (cosineSq (bagVector (joinSpace a.text_tokens))
          (bagVector (joinSpace b₀.text_tokens))).1 * 400 := by
        rw [heq₀]
        positivity
      omega
    cases hbest : (bestScan (fun b => cosineSq (bagVector (joinSpace a.text_tokens))
        (bagVector (joinSpace b.text_tokens))) used bs).2 with
    | none =>
        obtain ⟨-, g2⟩ := bestScan_none_aux _ used bs ((0, 1), none) hbest
        rw [g2 b₀ hb₀ hbu₀] at hpos₀
        exact absurd hpos₀ (by simp)
    | some n =>
        obtain ⟨hn, hnu, hsc⟩ := bestScan_some hbest
        have hge : fracLe cosineGate (bestScan (fun b => cosineSq
            (bagVector (joinSpace a.text_tokens)) (bagVector (joinSpace b.text_tokens)))
            used bs).1 = true := by
          have hlow : fracLe cosineGate (cosineSq (bagVector (joinSpace a.text_tokens))
              (bagVector (joinSpace b₀.text_tokens))) = true := by
            simp only [fracLe, decide_eq_true_eq, cosineGate]
            omega
          have hb₀le := (bestScan_ub _ used hposden bs ((0, 1), none) (by norm_num)).2.2
            b₀ hb₀ hbu₀
          exact fracLe_trans (cosineSq_den_pos _ _) hlow hb₀le
        have hle : fracLe (bestScan (fun b => cosineSq
            (bagVector (joinSpace a.text_tokens)) (bagVector (joinSpace b.text_tokens)))
            used bs).1 cosineGate = true := by
          rw [hsc]
          exact hub n hn hnu
        have hnum : (bestScan (fun b => cosineSq (bagVector (joinSpace a.text_tokens))
            (bagVector (joinSpace b.text_tokens))) used bs).1.1 * 400 =
            121 * (bestScan (fun b => cosineSq (bagVector (joinSpace a.text_tokens))
            (bagVector (joinSpace b.text_tokens))) used bs).1.2 := by
          simp only [fracLe, decide_eq_true_eq, cosineGate] at hge hle
          omega
        have hs3 : stage3Pick bs used a = some (n, (bestScan (fun b => cosineSq
            (bagVector (joinSpace a.text_tokens)) (bagVector (joinSpace b.text_tokens)))
            used bs).1) := by
          unfold stage3Pick
          dsimp only
          rw [hbest]
          dsimp only
          rw [if_pos hge]
        refine ⟨n, _, hs3, hnum, ?_⟩
        unfold alignStep
        dsimp only
        rw [h1, h2, hs3]
  · intro hlt
    have hs3 : stage3Pick bs used a = none := by
      unfold stage3Pick
      dsimp only
      cases hbest : (bestScan (fun b => cosineSq (bagVector (joinSpace a.text_tokens))
          (bagVector (joinSpace b.text_tokens))) used bs).2 with
      | none => rfl
      | some n =>
          dsimp only
          obtain ⟨hn, hnu, hsc⟩ := bestScan_some hbest
          have : fracLe cosineGate (bestScan (fun b => cosineSq
              (bagVector (joinSpace a.text_tokens)) (bagVector (joinSpace b.text_tokens)))
              used bs).1 = false := by
            rw [hsc]
            exact fracLe_false_of_fracLt (hlt n hn hnu)
          rw [if_neg (by simp [this])]
    refine ⟨hs3, ?_⟩
    unfold alignStep
    dsimp only
    rw [h1, h2, hs3]
    cases h4 : sortCandidates (stage4Candidates bs used a) with
    | nil => exact ⟨_, rfl, by simp⟩
    | cons c rest =>
        refine ⟨_, rfl, ?_⟩
        intro r hr
        simp only [List.mem_singleton] at hr
        subst hr
        simp

/-- C5 witness: against `c5a` (vector `{x:1, y:1}`), the clause `c5b` has
cosine exactly `0.55` and stage 3 matches it; the clause `c5b'` has cosine
`1/√8 < 0.55` and stage 3 rejects it.  Stages 1 and 2 fail on both pairs. -/
theorem claim_C5_witness :
    (stage1Pick [c5b] [] c5a = none ∧ stage2Pick [c5b] [] c5a = none ∧
      ∃ m s, stage3Pick [c5b] [] c5a = some (m, s) ∧ s.1 * 400 = 121 * s.2) ∧
    (stage1Pick [c5b'] [] c5a = none ∧ stage2Pick [c5b'] [] c5a = none ∧
      stage3Pick [c5b'] [] c5a = none) := by
  constructor
  · refine ⟨by decide, by decide, ?_⟩
    obtain ⟨m, s, hp, hnum, -⟩ :=
      (claim_C5 c5a [] [c5b] [] (by decide) (by decide)).1
        ⟨⟨c5b, by decide, by decide, by decide⟩, by decide⟩
    exact ⟨m, s, hp, hnum⟩
  · refine ⟨by decide, by decide, ?_⟩
    exact ((claim_C5 c5a [] [c5b'] [] (by decide) (by decide)).2 (by decide)).1

set_option maxRecDepth 4000 in
/-- C2 fails on the code as stated: the segmenter accepts the heading
`1. ???`, whose title normalises to an empty match key, so self-alignment
binds it in stage 2 with method `label_or_heading_fuzzy` (score 1.0), not
`title_exact`. -/
theorem claim_C2_counterexample :
    (align_clauses (build_clause_tree qBlocks) (build_clause_tree qBlocks)).entries =
      [⟨"clause-1", ["clause-1"], (6, 6), [⟨"label_or_heading_fuzzy", (6, 6)⟩], false⟩] ∧
    ¬ ∀ e ∈ (align_clauses (build_clause_tree qBlocks) (build_clause_tree qBlocks)).entries,
        ∀ r ∈ e.reasons, r.method = "title_exact" :=
  ⟨by decide, by decide⟩

/-- Matching a clause against its own copy produces the self entry: the
move test compares the path with itself, so `move_detected` is false. -/
theorem singleTargetEntry_self (a : ClauseNode) :
    singleTargetEntry a a [⟨"title_exact", (1, 1)⟩] = selfEntry a := by
  simp [singleTargetEntry, selfEntry, maxReasonScore]

/-- Self-alignment loop invariant: with every clause carrying a nonempty
match key and pairwise-distinct ids, each remaining clause is bound by
stage 1 to its own copy (the first unused candidate under its key). -/
theorem selfAlign_go (ns : List ClauseNode)
    (hkey : ∀ n ∈ ns, matchKey n ≠ "")
    (hnd : (ns.map (fun n => n.clause_id)).Nodup) :
    ∀ (post pre : List ClauseNode) (E : List AlignmentEntry),
      ns = pre ++ post →
      (post.foldl (alignStep ns) (pre.map (fun n => n.clause_id), E)).2 =
        E ++ post.map selfEntry := by
  intro post
  induction post with
  | nil =>
      intro pre E h
      simp
  | cons a rest ih =>
      intro pre E h
      have haks : matchKey a ≠ "" := hkey a (h ▸ List.mem_append_right pre (List.mem_cons_self _ _))
      have hanotpre : a.clause_id ∉ pre.map (fun n => n.clause_id) := by
        have hd := hnd
        rw [h, List.map_append] at hd
        have hdisj := List.disjoint_of_nodup_append hd
        intro hmem
        exact hdisj hmem (by simp)
      have hstage1 : stage1Pick ns (pre.map (fun n => n.clause_id)) a = some a := by
        unfold stage1Pick
        rw [if_neg haks]
        rw [h, List.filter_append, List.filter_cons]
        have hfa : (decide (matchKey a = matchKey a)) = true := by simp
        rw [hfa]
        rw [if_pos rfl]
        rw [List.find?_append]
        have hpre : List.find? (fun c => decide (c.clause_id ∉ pre.map fun n => n.clause_id))
            (pre.filter fun n => decide (matchKey n = matchKey a)) = none := by
          rw [List.find?_eq_none]
          intro x hx
          have hxpre : x ∈ pre := List.mem_of_mem_filter hx
          simp only [decide_eq_true_eq, Bool.not_eq_true, decide_eq_false_iff_not, not_not]
          exact List.mem_map_of_mem _ hxpre
        rw [hpre]
        have hda : (decide (a.clause_id ∉ pre.map fun n => n.clause_id)) = true := by
          simpa using hanotpre
        rw [List.find?_cons, hda]
        rfl
      rw [List.foldl_cons]
      have hstep : alignStep ns (pre.map (fun n => n.clause_id), E) a =
          ((pre ++ [a]).map (fun n => n.clause_id), E ++ [selfEntry a]) := by
        unfold alignStep
        dsimp only
        rw [hstage1]
        dsimp only
        rw [singleTargetEntry_self, List.map_append]
        rfl
      rw [hstep]
      have hrec := ih (pre ++ [a]) (E ++ [selfEntry a]) (by rw [h, List.append_assoc]; rfl)
      rw [hrec, List.map_cons, List.append_assoc]
      rfl

/-- C2 amended: aligning a segmenter-built tree against an identical copy
yields exactly one entry per non-root clause, each binding the corresponding
copy as its single target with confidence 1.0, sole match method
`title_exact` and `move_detected = false` — provided every clause has a
nonempty match key (the counterexample `1. ???` shows the claim fails
without this; clause ids are pairwise distinct as the segmenter assigns
them). -/
theorem claim_C2_amended (blocks : List Block)
    (hkey : ∀ n ∈ (build_clause_tree blocks).children, matchKey n ≠ "")
    (hnd : ((build_clause_tree blocks).children.map (fun n => n.clause_id)).Nodup) :
    align_clauses (build_clause_tree blocks) (build_clause_tree blocks) =
      ⟨(build_clause_tree blocks).children.map selfEntry⟩ := by
  unfold align_clauses alignNodes
  have h := selfAlign_go (build_clause_tree blocks).children hkey hnd
    (build_clause_tree blocks).children [] [] rfl
  simp only [List.map_nil, List.nil_append] at h
  exact congrArg AlignmentMap.mk h

/-- C2 witness: the two-clause tree from `1. Payment` / `2. Delivery` has
nonempty keys and distinct ids, and self-aligns to the two self entries. -/
theorem claim_C2_witness :
    (∀ n ∈ (build_clause_tree payBlocks).children, matchKey n ≠ "") ∧
    ((build_clause_tree payBlocks).children.map (fun n => n.clause_id)).Nodup ∧
    align_clauses (build_clause_tree payBlocks) (build_clause_tree payBlocks) =
      ⟨(build_clause_tree payBlocks).children.map selfEntry⟩ :=
  ⟨by decide, by decide, claim_C2_amended payBlocks (by decide) (by decide)⟩

section DifflibProofs

variable {α : Type} [DecidableEq α]

/-- Elements of the filtered/truncated position row lie in `[blo, bhi)`. -/
theorem js_mem_bounds {l : List Nat} {blo bhi j : Nat}
    (h : j ∈ (l.takeWhile (· < bhi)).filter (fun j => blo ≤ j)) :
    blo ≤ j ∧ j < bhi := by
  have h1 := List.mem_filter.mp h
  have h2 := List.mem_takeWhile_imp h1.1
  exact ⟨by simpa using h1.2, by simpa using h2⟩

/-- `alLookup` returns 0 or the value of a member with the looked-up key. -/
theorem alLookup_cases (l : List (Nat × Nat)) (k : Nat) :
    alLookup l k = 0 ∨ ∃ p ∈ l, p.1 = k ∧ alLookup l k = p.2 := by
  unfold alLookup
  cases hf : l.find? (fun p => p.1 = k) with
  | none => exact Or.inl rfl
  | some p =>
      refine Or.inr ⟨p, List.mem_of_find?_eq_some hf, ?_, rfl⟩
      have := List.find?_some hf
      simpa using this

/-- The dynamic-programming row preserves the `j2len` and best-block bounds:
entries of the new row are matches ending at row `i`, and the best block
stays inside `[alo, i+1) × [blo, bhi)`. -/
theorem flmRow_inv (alo blo bhi i : Nat) (js : List Nat) (j2len : List (Nat × Nat))
    (best : Nat × Nat × Nat)
    (hi : alo ≤ i)
    (hj2 : ∀ p ∈ j2len, blo ≤ p.1 ∧ p.1 < bhi ∧ p.2 ≤ p.1 + 1 - blo ∧ p.2 ≤ i - alo)
    (hjs : ∀ j ∈ js, blo ≤ j ∧ j < bhi)
    (hbest : best = (alo, blo, 0) ∨ (1 ≤ best.2.2 ∧ alo ≤ best.1 ∧ blo ≤ best.2.1 ∧
      best.1 + best.2.2 ≤ i ∧ best.2.1 + best.2.2 ≤ bhi)) :
    (∀ p ∈ (flmRow i js j2len best).1,
      blo ≤ p.1 ∧ p.1 < bhi ∧ p.2 ≤ p.1 + 1 - blo ∧ p.2 ≤ i + 1 - alo) ∧
    ((flmRow i js j2len best).2 = (alo, blo, 0) ∨
      (1 ≤ (flmRow i js j2len best).2.2.2 ∧ alo ≤ (flmRow i js j2len best).2.1 ∧
        blo ≤ (flmRow i js j2len best).2.2.1 ∧
        (flmRow i js j2len best).2.1 + (flmRow i js j2len best).2.2.2 ≤ i + 1 ∧
        (flmRow i js j2len best).2.2.1 + (flmRow i js j2len best).2.2.2 ≤ bhi)) := by
  unfold flmRow
  suffices h : ∀ (js' : List Nat) (st : List (Nat × Nat) × (Nat × Nat × Nat)),
      (∀ j ∈ js', blo ≤ j ∧ j < bhi) →
      (∀ p ∈ st.1, blo ≤ p.1 ∧ p.1 < bhi ∧ p.2 ≤ p.1 + 1 - blo ∧ p.2 ≤ i + 1 - alo) →
      (st.2 = (alo, blo, 0) ∨ (1 ≤ st.2.2.2 ∧ alo ≤ st.2.1 ∧ blo ≤ st.2.2.1 ∧
        st.2.1 + st.2.2.2 ≤ i + 1 ∧ st.2.2.1 + st.2.2.2 ≤ bhi)) →
      (∀ p ∈ (js'.foldl (fun st j =>
          let k := (if j = 0 then 0 else alLookup j2len (j - 1)) + 1
          let best' := if st.2.2.2 < k then (i + 1 - k, j + 1 - k, k) else st.2
          ((j, k) :: st.1, best')) st).1,
        blo ≤ p.1 ∧ p.1 < bhi ∧ p.2 ≤ p.1 + 1 - blo ∧ p.2 ≤ i + 1 - alo) ∧
      ((js'.foldl (fun st j =>
          let k := (if j = 0 then 0 else alLookup j2len (j - 1)) + 1
          let best' := if st.2.2.2 < k then (i + 1 - k, j + 1 - k, k) else st.2
          ((j, k) :: st.1, best')) st).2 = (alo, blo, 0) ∨
        (1 ≤ (js'.foldl (fun st j =>
          let k := (if j = 0 then 0 else alLookup j2len (j - 1)) + 1
          let best' := if st.2.2.2 < k then (i + 1 - k, j + 1 - k, k) else st.2
          ((j, k) :: st.1, best')) st).2.2.2 ∧
          alo ≤ (js'.foldl (fun st j =>
          let k := (if j = 0 then 0 else alLookup j2len (j - 1)) + 1
          let best' := if st.2.2.2 < k then (i + 1 - k, j + 1 - k, k) else st.2
          ((j, k) :: st.1, best')) st).2.1 ∧
          blo ≤ (js'.foldl (fun st j =>
          let k := (if j = 0 then 0 else alLookup j2len (j - 1)) + 1
          let best' := if st.2.2.2 < k then (i + 1 - k, j + 1 - k, k) else st.2
          ((j, k) :: st.1, best')) st).2.2.1 ∧
          (js'.foldl (fun st j =>
          let k := (if j = 0 then 0 else alLookup j2len (j - 1)) + 1
          let best' := if st.2.2.2 < k then (i + 1 - k, j + 1 - k, k) else st.2
          ((j, k) :: st.1, best')) st).2.1 + (js'.foldl (fun st j =>
          let k := (if j = 0 then 0 else alLookup j2len (j - 1)) + 1
          let best' := if st.2.2.2 < k then (i + 1 - k, j + 1 - k, k) else st.2
          ((j, k) :: st.1, best')) st).2.2.2 ≤ i + 1 ∧
          (js'.foldl (fun st j =>
          let k := (if j = 0 then 0 else alLookup j2len (j - 1)) + 1
          let best' := if st.2.2.2 < k then (i + 1 - k, j + 1 - k, k) else st.2
          ((j, k) :: st.1, best')) st).2.2.1 + (js'.foldl (fun st j =>
          let k := (if j = 0 then 0 else alLookup j2len (j - 1)) + 1
          let best' := if st.2.2.2 < k then (i + 1 - k, j + 1 - k, k) else st.2
          ((j, k) :: st.1, best')) st).2.2.2 ≤ bhi)) by
    refine h js ([], best) hjs (by simp) ?_
    rcases hbest with h' | h'
    · exact Or.inl h'
    · exact Or.inr ⟨h'.1, h'.2.1, h'.2.2.1, Nat.le_succ_of_le h'.2.2.2.1, h'.2.2.2.2⟩
  intro js'
  induction js' with
  | nil => intro st _ h1 h2; exact ⟨h1, h2⟩
  | cons j rest ihj =>
      intro st hjs' h1 h2
      rw [List.foldl_cons]
      have hjb := hjs' j (List.mem_cons_self _ _)
      have hrest : ∀ j' ∈ rest, blo ≤ j' ∧ j' < bhi :=
        fun j' hj' => hjs' j' (List.mem_cons_of_mem _ hj')
      have hk : (if j = 0 then 0 else alLookup j2len (j - 1)) + 1 ≤ j + 1 - blo ∧
          (if j = 0 then 0 else alLookup j2len (j - 1)) + 1 ≤ i + 1 - alo := by
        by_cases hj0 : j = 0
        · rw [if_pos hj0]
          subst hj0
          omega
        · rw [if_neg hj0]
          rcases alLookup_cases j2len (j - 1) with hz | ⟨p, hp, hpk, hpv⟩
          · rw [hz]
            omega
          · obtain ⟨q1, q2, q3, q4⟩ := hj2 p hp
            rw [hpv.symm] at q3 q4
            omega
      apply ihj
      · exact hrest
      · intro p hp
        dsimp only at hp
        rcases List.mem_cons.mp hp with hh | hh
        · subst hh
          exact ⟨hjb.1, hjb.2, hk.1, hk.2⟩
        · exact h1 p hh
      · dsimp only
        by_cases hup : st.2.2.2 < (if j = 0 then 0 else alLookup j2len (j - 1)) + 1
        · rw [if_pos hup]
          obtain ⟨hk1, hk2⟩ := hk
          obtain ⟨hjb1, hjb2⟩ := hjb
          generalize hxg : (if j = 0 then 0 else alLookup j2len (j - 1)) = x at hk1 hk2 ⊢
          dsimp only
          refine Or.inr ⟨?_, ?_, ?_, ?_, ?_⟩ <;> omega
        · rw [if_neg hup]
          exact h2

end DifflibProofs

section DifflibBounds

variable {α : Type} [DecidableEq α]

/-- Row recursion of `find_longest_match`: starting from a row-`i` state,
the final best block lies inside `[alo, i+steps] × [blo, bhi)`. -/
theorem flmRows_inv (a : List α) (b2j : α → List Nat) (alo blo bhi : Nat) :
    ∀ (steps i : Nat) (j2len : List (Nat × Nat)) (best : Nat × Nat × Nat),
      alo ≤ i →
      (∀ p ∈ j2len, blo ≤ p.1 ∧ p.1 < bhi ∧ p.2 ≤ p.1 + 1 - blo ∧ p.2 ≤ i - alo) →
      (best = (alo, blo, 0) ∨ (1 ≤ best.2.2 ∧ alo ≤ best.1 ∧ blo ≤ best.2.1 ∧
        best.1 + best.2.2 ≤ i ∧ best.2.1 + best.2.2 ≤ bhi)) →
      (flmRows a b2j blo bhi steps i j2len best = (alo, blo, 0) ∨
        (1 ≤ (flmRows a b2j blo bhi steps i j2len best).2.2 ∧
          alo ≤ (flmRows a b2j blo bhi steps i j2len best).1 ∧
          blo ≤ (flmRows a b2j blo bhi steps i j2len best).2.1 ∧
          (flmRows a b2j blo bhi steps i j2len best).1 +
            (flmRows a b2j blo bhi steps i j2len best).2.2 ≤ i + steps ∧
          (flmRows a b2j blo bhi steps i j2len best).2.1 +
            (flmRows a b2j blo bhi steps i j2len best).2.2 ≤ bhi)) := by
  intro steps
  induction steps with
  | zero =>
      intro i j2len best hi hj2 hbest
      rcases hbest with h | h
      · exact Or.inl (by simpa [flmRows] using h)
      · refine Or.inr ?_
        simpa [flmRows] using ⟨h.1, h.2.1, h.2.2.1, by omega, h.2.2.2.2⟩
  | succ steps ihs =>
      intro i j2len best hi hj2 hbest
      rw [flmRows]
      cases hg : a.get? i with
      | none =>
          dsimp only
          have := ihs (i + 1) [] best (by omega) (by simp) ?_
          · rcases this with h | h
            · exact Or.inl h
            · exact Or.inr ⟨h.1, h.2.1, h.2.2.1, by omega, h.2.2.2.2⟩
          · rcases hbest with h | h
            · exact Or.inl h
            · exact Or.inr ⟨h.1, h.2.1, h.2.2.1, by omega, h.2.2.2.2⟩
      | some x =>
          dsimp only
          have hrow := flmRow_inv alo blo bhi i
            (((b2j x).takeWhile (· < bhi)).filter (fun j => blo ≤ j))
            j2len best hi hj2 (fun j hj => js_mem_bounds hj) hbest
          have := ihs (i + 1)
            (flmRow i (((b2j x).takeWhile (· < bhi)).filter (fun j => blo ≤ j)) j2len best).1
            (flmRow i (((b2j x).takeWhile (· < bhi)).filter (fun j => blo ≤ j)) j2len best).2
            (by omega) (by simpa using hrow.1) hrow.2
          rcases this with h | h
          · exact Or.inl h
          · exact Or.inr ⟨h.1, h.2.1, h.2.2.1, by omega, h.2.2.2.2⟩

/-- The left extension loops preserve the block bounds. -/
theorem extendLeft_inv (a b : List α) (good : α → Bool) {alo blo ahi bhi : Nat} :
    ∀ (fuel : Nat) (best : Nat × Nat × Nat),
      alo ≤ best.1 → blo ≤ best.2.1 → best.1 + best.2.2 ≤ ahi → best.2.1 + best.2.2 ≤ bhi →
      alo ≤ (extendLeft a b good alo blo fuel best).1 ∧
      blo ≤ (extendLeft a b good alo blo fuel best).2.1 ∧
      (extendLeft a b good alo blo fuel best).1 +
        (extendLeft a b good alo blo fuel best).2.2 ≤ ahi ∧
      (extendLeft a b good alo blo fuel best).2.1 +
        (extendLeft a b good alo blo fuel best).2.2 ≤ bhi := by
  intro fuel
  induction fuel with
  | zero => intro best h1 h2 h3 h4; exact ⟨h1, h2, h3, h4⟩
  | succ fuel ih =>
      intro best h1 h2 h3 h4
      obtain ⟨bi, bj, bs⟩ := best
      dsimp only at h1 h2 h3 h4
      rw [extendLeft]
      by_cases hg : alo < bi ∧ blo < bj ∧ extGuard a b good (bi - 1) (bj - 1) = true
      · rw [if_pos hg]
        obtain ⟨hg1, hg2, -⟩ := hg
        refine ih (bi - 1, bj - 1, bs + 1) ?_ ?_ ?_ ?_ <;> dsimp only <;> omega
      · rw [if_neg hg]
        exact ⟨h1, h2, h3, h4⟩

/-- The right extension loops preserve the block bounds. -/
theorem extendRight_inv (a b : List α) (good : α → Bool) {alo blo ahi bhi : Nat} :
    ∀ (fuel : Nat) (best : Nat × Nat × Nat),
      alo ≤ best.1 → blo ≤ best.2.1 → best.1 + best.2.2 ≤ ahi → best.2.1 + best.2.2 ≤ bhi →
      alo ≤ (extendRight a b good ahi bhi fuel best).1 ∧
      blo ≤ (extendRight a b good ahi bhi fuel best).2.1 ∧
      (extendRight a b good ahi bhi fuel best).1 +
        (extendRight a b good ahi bhi fuel best).2.2 ≤ ahi ∧
      (extendRight a b good ahi bhi fuel best).2.1 +
        (extendRight a b good ahi bhi fuel best).2.2 ≤ bhi := by
  intro fuel
  induction fuel with
  | zero => intro best h1 h2 h3 h4; exact ⟨h1, h2, h3, h4⟩
  | succ fuel ih =>
      intro best h1 h2 h3 h4
      obtain ⟨bi, bj, bs⟩ := best
      dsimp only at h1 h2 h3 h4
      rw [extendRight]
      by_cases hg : bi + bs < ahi ∧ bj + bs < bhi ∧ extGuard a b good (bi + bs) (bj + bs) = true
      · rw [if_pos hg]
        obtain ⟨hg1, hg2, -⟩ := hg
        refine ih (bi, bj, bs + 1) ?_ ?_ ?_ ?_ <;> dsimp only <;> omega
      · rw [if_neg hg]
        exact ⟨h1, h2, h3, h4⟩

/-- `find_longest_match` returns a block inside the requested ranges. -/
theorem findLongestMatch_bounds (isjunk : α → Bool) (a b : List α)
    {alo ahi blo bhi : Nat} (ha : alo ≤ ahi) (hb : blo ≤ bhi) :
    alo ≤ (findLongestMatch isjunk a b alo ahi blo bhi).1 ∧
    blo ≤ (findLongestMatch isjunk a b alo ahi blo bhi).2.1 ∧
    (findLongestMatch isjunk a b alo ahi blo bhi).1 +
      (findLongestMatch isjunk a b alo ahi blo bhi).2.2 ≤ ahi ∧
    (findLongestMatch isjunk a b alo ahi blo bhi).2.1 +
      (findLongestMatch isjunk a b alo ahi blo bhi).2.2 ≤ bhi := by
  unfold findLongestMatch
  dsimp only
  have h0 := flmRows_inv a (b2jGet isjunk b) alo blo bhi (ahi - alo) alo [] (alo, blo, 0)
    (Nat.le_refl _) (by simp) (Or.inl rfl)
  have hbase : alo ≤ (flmRows a (b2jGet isjunk b) blo bhi (ahi - alo) alo [] (alo, blo, 0)).1 ∧
      blo ≤ (flmRows a (b2jGet isjunk b) blo bhi (ahi - alo) alo [] (alo, blo, 0)).2.1 ∧
      (flmRows a (b2jGet isjunk b) blo bhi (ahi - alo) alo [] (alo, blo, 0)).1 +
        (flmRows a (b2jGet isjunk b) blo bhi (ahi - alo) alo [] (alo, blo, 0)).2.2 ≤ ahi ∧
      (flmRows a (b2jGet isjunk b) blo bhi (ahi - alo) alo [] (alo, blo, 0)).2.1 +
        (flmRows a (b2jGet isjunk b) blo bhi (ahi - alo) alo [] (alo, blo, 0)).2.2 ≤ bhi := by
    rcases h0 with h | h
    · rw [h]
      exact ⟨Nat.le_refl _, Nat.le_refl _, by simpa using ha, by simpa using hb⟩
    · exact ⟨h.2.1, h.2.2.1, by omega, h.2.2.2.2⟩
  obtain ⟨g1, g2, g3, g4⟩ := hbase
  revert g1 g2 g3 g4
  generalize flmRows a (b2jGet isjunk b) blo bhi (ahi - alo) alo [] (alo, blo, 0) = s0
  intro g1 g2 g3 g4
  obtain ⟨g1, g2, g3, g4⟩ := extendLeft_inv a b (fun y => ¬ isjunk y) s0.1 s0 g1 g2 g3 g4
  revert g1 g2 g3 g4
  generalize extendLeft a b (fun y => ¬ isjunk y) alo blo s0.1 s0 = s1
  intro g1 g2 g3 g4
  obtain ⟨g1, g2, g3, g4⟩ := extendRight_inv a b (fun y => ¬ isjunk y) ahi s1 g1 g2 g3 g4
  revert g1 g2 g3 g4
  generalize extendRight a b (fun y => ¬ isjunk y) ahi bhi ahi s1 = s2
  intro g1 g2 g3 g4
  obtain ⟨g1, g2, g3, g4⟩ := extendLeft_inv a b (fun y => isjunk y) s2.1 s2 g1 g2 g3 g4
  revert g1 g2 g3 g4
  generalize extendLeft a b (fun y => isjunk y) alo blo s2.1 s2 = s3
  intro g1 g2 g3 g4
  exact extendRight_inv a b (fun y => isjunk y) ahi s3 g1 g2 g3 g4

end DifflibBounds

/-- A chain's end position is at or after its start. -/
theorem chain_le : ∀ (L : List (Nat × Nat × Nat)) (i j i' j' : Nat),
    Chain i j i' j' L → i ≤ i' ∧ j ≤ j' := by
  intro L
  induction L with
  | nil =>
      intro i j i' j' h
      obtain ⟨h1, h2⟩ := h
      omega
  | cons bl rest ih =>
      intro i j i' j' h
      obtain ⟨ai, bj, k⟩ := bl
      obtain ⟨h1, h2, h3⟩ := h
      have := ih (ai + k) (bj + k) i' j' h3
      omega

/-- Chains concatenate. -/
theorem chain_append : ∀ (L₁ L₂ : List (Nat × Nat × Nat)) (x y u v z w : Nat),
    Chain x y u v L₁ → Chain u v z w L₂ → Chain x y z w (L₁ ++ L₂) := by
  intro L₁
  induction L₁ with
  | nil =>
      intro L₂ x y u v z w h1 h2
      obtain ⟨e1, e2⟩ := h1
      rw [List.nil_append]
      rw [e1, e2] at h2
      exact h2
  | cons bl rest ih =>
      intro L₂ x y u v z w h1 h2
      obtain ⟨ai, bj, k⟩ := bl
      obtain ⟨g1, g2, g3⟩ := h1
      exact ⟨g1, g2, ih L₂ (ai + k) (bj + k) u v z w g3 h2⟩

section ChainProofs

variable {α : Type} [DecidableEq α]

/-- The recursive block collection yields a monotone chain from
`(alo, blo)` ending inside the requested ranges. -/
theorem matchBlocksF_chain (isjunk : α → Bool) (a b : List α) :
    ∀ (fuel alo ahi blo bhi : Nat), alo ≤ ahi → blo ≤ bhi →
      ∃ i' j', alo ≤ i' ∧ i' ≤ ahi ∧ blo ≤ j' ∧ j' ≤ bhi ∧
        Chain alo blo i' j' (matchBlocksF isjunk a b fuel alo ahi blo bhi) := by
  intro fuel
  induction fuel with
  | zero =>
      intro alo ahi blo bhi ha hb
      exact ⟨alo, blo, Nat.le_refl _, ha, Nat.le_refl _, hb, rfl, rfl⟩
  | succ fuel ih =>
      intro alo ahi blo bhi ha hb
      rw [matchBlocksF]
      by_cases hz : (findLongestMatch isjunk a b alo ahi blo bhi).2.2 = 0
      · rw [if_pos hz]
        exact ⟨alo, blo, Nat.le_refl _, ha, Nat.le_refl _, hb, rfl, rfl⟩
      · rw [if_neg hz]
        obtain ⟨q1, q2, q3, q4⟩ := findLongestMatch_bounds isjunk a b ha hb
        obtain ⟨iL, jL, hL1, hL2, hL3, hL4, hLc⟩ :=
          ih alo (findLongestMatch isjunk a b alo ahi blo bhi).1 blo
            (findLongestMatch isjunk a b alo ahi blo bhi).2.1 q1 q2
        obtain ⟨iR, jR, hR1, hR2, hR3, hR4, hRc⟩ :=
          ih ((findLongestMatch isjunk a b alo ahi blo bhi).1 +
              (findLongestMatch isjunk a b alo ahi blo bhi).2.2) ahi
            ((findLongestMatch isjunk a b alo ahi blo bhi).2.1 +
              (findLongestMatch isjunk a b alo ahi blo bhi).2.2) bhi q3 q4
        refine ⟨iR, jR, by omega, hR2, by omega, hR4, ?_⟩
        exact chain_append _ _ _ _ _ _ _ _ hLc ⟨hL2, hL4, hRc⟩

/-- The adjacent-block merging loop preserves the chain: the pending block
starts at or after `(s, t)` and the merged output chains from `(s, t)` to a
position dominated by the input chain's end. -/
theorem mergeAdjacent_chain :
    ∀ (blocks : List (Nat × Nat × Nat)) (acc : Nat × Nat × Nat) (s t i' j' : Nat),
      s ≤ acc.1 → t ≤ acc.2.1 →
      Chain (acc.1 + acc.2.2) (acc.2.1 + acc.2.2) i' j' blocks →
      ∃ e f, e ≤ i' ∧ f ≤ j' ∧ Chain s t e f (mergeAdjacent blocks acc) := by
  intro blocks
  induction blocks with
  | nil =>
      intro acc s t i' j' hs ht hch
      obtain ⟨he1, he2⟩ := hch
      unfold mergeAdjacent
      by_cases hk : acc.2.2 ≠ 0
      · rw [if_pos hk]
        exact ⟨acc.1 + acc.2.2, acc.2.1 + acc.2.2, by omega, by omega, hs, ht, rfl, rfl⟩
      · rw [if_neg hk]
        exact ⟨s, t, by omega, by omega, rfl, rfl⟩
  | cons bl rest ih =>
      intro acc s t i' j' hs ht hch
      obtain ⟨i2, j2, k2⟩ := bl
      obtain ⟨hc1, hc2, hc3⟩ := hch
      obtain ⟨i1, j1, k1⟩ := acc
      dsimp only at hc1 hc2 hs ht hc3
      rw [mergeAdjacent]
      by_cases hm : i1 + k1 = i2 ∧ j1 + k1 = j2
      · rw [if_pos hm]
        refine ih (i1, j1, k1 + k2) s t i' j' (by dsimp only; omega) (by dsimp only; omega) ?_
        dsimp only
        rw [show i1 + (k1 + k2) = i2 + k2 by omega, show j1 + (k1 + k2) = j2 + k2 by omega]
        exact hc3
      · rw [if_neg hm]
        by_cases hk : k1 ≠ 0
        · rw [if_pos hk]
          obtain ⟨e, f, he, hf, hrec⟩ :=
            ih (i2, j2, k2) (i1 + k1) (j1 + k1) i' j' (by dsimp only; omega)
              (by dsimp only; omega) (by dsimp only; exact hc3)
          exact ⟨e, f, he, hf, hs, ht, hrec⟩
        · rw [if_neg hk]
          obtain ⟨e, f, he, hf, hrec⟩ :=
            ih (i2, j2, k2) s t i' j' (by dsimp only; omega) (by dsimp only; omega)
              (by dsimp only; exact hc3)
          exact ⟨e, f, he, hf, by simpa using hrec⟩

/-- `get_matching_blocks()` is a monotone chain covering
`[0, len(a)) × [0, len(b))` and ending exactly at `(len(a), len(b))`. -/
theorem getMatchingBlocks_chain (isjunk : α → Bool) (a b : List α) :
    Chain 0 0 a.length b.length (getMatchingBlocks isjunk a b) := by
  unfold getMatchingBlocks matchBlocks
  obtain ⟨i', j', h1, h2, h3, h4, hc⟩ :=
    matchBlocksF_chain isjunk a b ((a.length - 0) + (b.length - 0) + 1) 0 a.length 0 b.length
      (Nat.zero_le _) (Nat.zero_le _)
  obtain ⟨e, f, he, hf, hm⟩ :=
    mergeAdjacent_chain _ (0, 0, 0) 0 0 i' j' (Nat.le_refl _) (Nat.le_refl _) (by simpa using hc)
  refine chain_append _ _ _ _ _ _ _ _ hm ?_
  exact ⟨by omega, by omega, by omega, by omega⟩

end ChainProofs


/-! ### Span reconstruction: the word-diff spans rebuild the original text -/

/-- The empty slice `l[i:i]`. -/
theorem slice_self {β : Type} (l : List β) (i : Nat) : listSlice l i i = [] := by
  simp [listSlice]

/-- Adjacent slices concatenate. -/
theorem slice_split {β : Type} (l : List β) (i m n : Nat) (h1 : i ≤ m) (h2 : m ≤ n) :
    listSlice l i m ++ listSlice l m n = listSlice l i n := by
  unfold listSlice
  have hd : l.drop m = (l.drop i).drop (m - i) := by
    rw [List.drop_drop]
    congr 1
    omega
  have hn : n - i = (m - i) + (n - m) := by omega
  rw [hd, hn, List.take_add]

/-- A slice followed by the remaining tail is the tail from the slice's start. -/
theorem slice_drop {β : Type} (l : List β) (i m : Nat) (h : i ≤ m) :
    listSlice l i m ++ l.drop m = l.drop i := by
  unfold listSlice
  have hd : l.drop m = (l.drop i).drop (m - i) := by
    rw [List.drop_drop]
    congr 1
    omega
  rw [hd, List.take_append_drop]

theorem spansFrom_texts (ty : String) (ws : List String) : ∀ (pos : Nat),
    (spansFrom ty pos ws).map (fun s => s.text) = ws := by
  induction ws with
  | nil => intro pos; rfl
  | cons w ws ih =>
      intro pos
      simp only [spansFrom, List.map_cons]
      rw [ih]

theorem spansFrom_offsets (ty : String) (ws : List String) : ∀ (pos : Nat),
    offsetsOk pos (spansFrom ty pos ws) := by
  induction ws with
  | nil => intro pos; trivial
  | cons w ws ih => intro pos; exact ⟨rfl, ih (pos + w.length)⟩

theorem offsetsOk_append : ∀ (xs ys : List WordSpan) (pos : Nat),
    offsetsOk pos xs →
    offsetsOk (pos + ((xs.map (fun s => s.text)).map String.length).sum) ys →
    offsetsOk pos (xs ++ ys)
  | [], ys, pos, _, hy => by simpa using hy
  | x :: xs, ys, pos, hx, hy => by
      refine ⟨hx.1, offsetsOk_append xs ys (pos + x.text.length) hx.2 ?_⟩
      have he : pos + x.text.length + ((xs.map fun s => s.text).map String.length).sum
          = pos + (((x :: xs).map fun s => s.text).map String.length).sum := by
        simp only [List.map_cons, List.sum_cons]
        omega
      rw [he]
      exact hy

/-- Closed form of the per-opcode token fold of `_compute_word_diff_spans`:
it appends one span per token (when the guard holds) and advances the
position by every token's length. -/
theorem segFold_spec (c : Prop) [Decidable c] (ty : String) :
    ∀ (ws : List String) (acc : List WordSpan) (pos : Nat),
      ws.foldl (fun (st : List WordSpan × Nat) w =>
          (st.1 ++ (if c then [⟨w, st.2, ty⟩] else []), st.2 + w.length)) (acc, pos) =
        (acc ++ (if c then spansFrom ty pos ws else []),
          pos + ((ws.map String.length).sum)) := by
  intro ws
  induction ws with
  | nil =>
      intro acc pos
      simp [spansFrom]
  | cons w ws ih =>
      intro acc pos
      rw [List.foldl_cons]
      dsimp only
      rw [ih]
      by_cases hc : c
      · simp only [if_pos hc, spansFrom, List.append_assoc, List.singleton_append,
          List.map_cons, List.sum_cons, Prod.mk.injEq]
        exact ⟨trivial, by omega⟩
      · simp only [if_neg hc, List.append_nil, List.map_cons, List.sum_cons, Prod.mk.injEq]
        exact ⟨trivial, by omega⟩

/-- One opcode of `_compute_word_diff_spans`: provided an `insert` opcode has
an empty before segment and a `delete` opcode an empty after segment (as
`get_opcodes` guarantees), it appends the segments' spans on both sides and
advances both character positions by the segments' total lengths. -/
theorem wordDiffFold_cons (bw aw : List String) (tag : String) (i1 i2 j1 j2 : Nat)
    (rest : List (String × Nat × Nat × Nat × Nat))
    (bacc aacc : List WordSpan) (bpos apos : Nat)
    (hb : tag = "insert" → listSlice bw i1 i2 = [])
    (ha : tag = "delete" → listSlice aw j1 j2 = []) :
    wordDiffFold bw aw ((tag, i1, i2, j1, j2) :: rest) bacc aacc bpos apos =
      wordDiffFold bw aw rest
        (bacc ++ spansFrom (if tag = "delete" then "removed" else "unchanged") bpos
          (listSlice bw i1 i2))
        (aacc ++ spansFrom (if tag = "insert" then "added" else "unchanged") apos
          (listSlice aw j1 j2))
        (bpos + (((listSlice bw i1 i2).map String.length).sum))
        (apos + (((listSlice aw j1 j2).map String.length).sum)) := by
  simp only [wordDiffFold]
  rw [segFold_spec, segFold_spec]
  have hbeq : (if ¬ tag = "insert" then
        spansFrom (if tag = "delete" then "removed" else "unchanged") bpos
          (listSlice bw i1 i2)
      else []) =
      spansFrom (if tag = "delete" then "removed" else "unchanged") bpos
        (listSlice bw i1 i2) := by
    by_cases h : tag = "insert"
    · rw [if_neg (not_not_intro h), hb h]
      rfl
    · rw [if_pos h]
  have haeq : (if ¬ tag = "delete" then
        spansFrom (if tag = "insert" then "added" else "unchanged") apos
          (listSlice aw j1 j2)
      else []) =
      spansFrom (if tag = "insert" then "added" else "unchanged") apos
        (listSlice aw j1 j2) := by
    by_cases h : tag = "delete"
    · rw [if_neg (not_not_intro h), ha h]
      rfl
    · rw [if_pos h]
  rw [hbeq, haeq]

/-- A conditionally present opcode whose segments are empty when absent
contributes uniformly. -/
theorem wordDiffFold_opt (bw aw : List String) (c : Prop) [Decidable c]
    (tag : String) (i1 i2 j1 j2 : Nat)
    (ops : List (String × Nat × Nat × Nat × Nat))
    (bacc aacc : List WordSpan) (bpos apos : Nat)
    (hb : tag = "insert" → listSlice bw i1 i2 = [])
    (ha : tag = "delete" → listSlice aw j1 j2 = [])
    (hcb : ¬ c → listSlice bw i1 i2 = [])
    (hca : ¬ c → listSlice aw j1 j2 = []) :
    wordDiffFold bw aw ((if c then [(tag, i1, i2, j1, j2)] else []) ++ ops)
        bacc aacc bpos apos =
      wordDiffFold bw aw ops
        (bacc ++ spansFrom (if tag = "delete" then "removed" else "unchanged") bpos
          (listSlice bw i1 i2))
        (aacc ++ spansFrom (if tag = "insert" then "added" else "unchanged") apos
          (listSlice aw j1 j2))
        (bpos + (((listSlice bw i1 i2).map String.length).sum))
        (apos + (((listSlice aw j1 j2).map String.length).sum)) := by
  by_cases hc : c
  · rw [if_pos hc, List.singleton_append]
    exact wordDiffFold_cons bw aw tag i1 i2 j1 j2 ops bacc aacc bpos apos hb ha
  · rw [if_neg hc, List.nil_append, hcb hc, hca hc]
    simp [spansFrom]

/-- Processing one matching block: the gap opcode (if any) and the equal
opcode (if any) together contribute exactly the tokens `bw[i:ai+k]` and
`aw[j:bj+k]` as spans with consecutive offsets, and the loop continues at
`(ai + k, bj + k)`. -/
theorem wordDiffFold_block (bw aw : List String) (ai bj k i j : Nat)
    (rest : List (Nat × Nat × Nat)) (bacc aacc : List WordSpan) (bpos apos : Nat)
    (hia : i ≤ ai) (hjb : j ≤ bj) :
    ∃ S T : List WordSpan,
      wordDiffFold bw aw (opcodesGo ((ai, bj, k) :: rest) i j) bacc aacc bpos apos =
        wordDiffFold bw aw (opcodesGo rest (ai + k) (bj + k))
          (bacc ++ S) (aacc ++ T)
          (bpos + ((listSlice bw i (ai + k)).map String.length).sum)
          (apos + ((listSlice aw j (bj + k)).map String.length).sum) ∧
      S.map (fun s => s.text) = listSlice bw i (ai + k) ∧
      T.map (fun s => s.text) = listSlice aw j (bj + k) ∧
      offsetsOk bpos S ∧ offsetsOk apos T := by
  simp only [opcodesGo]
  set tg := (if i < ai ∧ j < bj then "replace"
    else if i < ai then "delete"
    else if j < bj then "insert"
    else "") with htg
  have hsliceB : ¬ i < ai → listSlice bw i ai = [] := by
    intro h
    have he : i = ai := by omega
    rw [he]
    exact slice_self bw ai
  have hsliceA : ¬ j < bj → listSlice aw j bj = [] := by
    intro h
    have he : j = bj := by omega
    rw [he]
    exact slice_self aw bj
  have hIns : tg = "insert" → ¬ i < ai := by
    intro h
    by_cases hi : i < ai
    · by_cases hj : j < bj
      · rw [htg, if_pos ⟨hi, hj⟩] at h
        exact absurd h (by decide)
      · rw [htg, if_neg (by omega), if_pos hi] at h
        exact absurd h (by decide)
    · exact hi
  have hDel : tg = "delete" → ¬ j < bj := by
    intro h
    by_cases hj : j < bj
    · by_cases hi : i < ai
      · rw [htg, if_pos ⟨hi, hj⟩] at h
        exact absurd h (by decide)
      · rw [htg, if_neg (by omega), if_neg hi, if_pos hj] at h
        exact absurd h (by decide)
    · exact hj
  have hEmpty : ¬ ¬ tg = "" → ¬ i < ai ∧ ¬ j < bj := by
    intro hh
    rw [not_not] at hh
    by_cases hi : i < ai
    · by_cases hj : j < bj
      · rw [htg, if_pos ⟨hi, hj⟩] at hh
        exact absurd hh (by decide)
      · rw [htg, if_neg (by omega), if_pos hi] at hh
        exact absurd hh (by decide)
    · by_cases hj : j < bj
      · rw [htg, if_neg (by omega), if_neg hi, if_pos hj] at hh
        exact absurd hh (by decide)
      · exact ⟨hi, hj⟩
  have hk0b : ¬ ¬ k = 0 → listSlice bw ai (ai + k) = [] := by
    intro h
    rw [not_not] at h
    rw [h, Nat.add_zero]
    exact slice_self bw ai
  have hk0a : ¬ ¬ k = 0 → listSlice aw bj (bj + k) = [] := by
    intro h
    rw [not_not] at h
    rw [h, Nat.add_zero]
    exact slice_self aw bj
  rw [List.append_assoc]
  rw [wordDiffFold_opt bw aw (¬ tg = "") tg i ai j bj _ bacc aacc bpos apos
    (fun h => hsliceB (hIns h)) (fun h => hsliceA (hDel h))
    (fun h => hsliceB (hEmpty h).1) (fun h => hsliceA (hEmpty h).2)]
  rw [wordDiffFold_opt bw aw (¬ k = 0) "equal" ai (ai + k) bj (bj + k) _ _ _ _ _
    (fun h => absurd h (by decide)) (fun h => absurd h (by decide)) hk0b hk0a]
  have hsb : listSlice bw i ai ++ listSlice bw ai (ai + k) = listSlice bw i (ai + k) :=
    slice_split bw i ai (ai + k) hia (Nat.le_add_right ai k)
  have hsa : listSlice aw j bj ++ listSlice aw bj (bj + k) = listSlice aw j (bj + k) :=
    slice_split aw j bj (bj + k) hjb (Nat.le_add_right bj k)
  refine ⟨spansFrom (if tg = "delete" then "removed" else "unchanged") bpos (listSlice bw i ai)
      ++ spansFrom (if ("equal" : String) = "delete" then "removed" else "unchanged")
        (bpos + ((listSlice bw i ai).map String.length).sum) (listSlice bw ai (ai + k)),
    spansFrom (if tg = "insert" then "added" else "unchanged") apos (listSlice aw j bj)
      ++ spansFrom (if ("equal" : String) = "insert" then "added" else "unchanged")
        (apos + ((listSlice aw j bj).map String.length).sum) (listSlice aw bj (bj + k)),
    ?_, ?_, ?_, ?_, ?_⟩
  · rw [List.append_assoc, List.append_assoc, ← hsb, ← hsa, List.map_append, List.map_append,
      List.sum_append, List.sum_append, Nat.add_assoc, Nat.add_assoc]
  · rw [List.map_append, spansFrom_texts, spansFrom_texts]
    exact hsb
  · rw [List.map_append, spansFrom_texts, spansFrom_texts]
    exact hsa
  · refine offsetsOk_append _ _ _ (spansFrom_offsets _ _ _) ?_
    rw [spansFrom_texts]
    exact spansFrom_offsets _ _ _
  · refine offsetsOk_append _ _ _ (spansFrom_offsets _ _ _) ?_
    rw [spansFrom_texts]
    exact spansFrom_offsets _ _ _

/-- The full opcode loop over a monotone chain of matching blocks: starting
from token positions `(i, j)`, the emitted before-spans' texts are exactly
`bw[i:]` and the after-spans' texts exactly `aw[j:]`, each with consecutive
character offsets from the starting positions. -/
theorem wordDiffFold_spec (bw aw : List String) :
    ∀ (blocks : List (Nat × Nat × Nat)) (i j : Nat),
      Chain i j bw.length aw.length blocks →
      ∀ (bacc aacc : List WordSpan) (bpos apos : Nat),
        ∃ nb na,
          wordDiffFold bw aw (opcodesGo blocks i j) bacc aacc bpos apos =
            ⟨bacc ++ nb, aacc ++ na⟩ ∧
          nb.map (fun s => s.text) = bw.drop i ∧
          na.map (fun s => s.text) = aw.drop j ∧
          offsetsOk bpos nb ∧ offsetsOk apos na := by
  intro blocks
  induction blocks with
  | nil =>
      intro i j hch bacc aacc bpos apos
      obtain ⟨hi, hj⟩ := hch
      refine ⟨[], [], ?_, ?_, ?_, trivial, trivial⟩
      · simp [opcodesGo, wordDiffFold]
      · simp only [List.map_nil]
        rw [← hi, List.drop_length]
      · simp only [List.map_nil]
        rw [← hj, List.drop_length]
  | cons blk rest ih =>
      intro i j hch bacc aacc bpos apos
      obtain ⟨ai, bj, k⟩ := blk
      obtain ⟨hia, hjb, hrest⟩ := hch
      obtain ⟨S, T, heq, htS, htT, hoS, hoT⟩ :=
        wordDiffFold_block bw aw ai bj k i j rest bacc aacc bpos apos hia hjb
      obtain ⟨nb, na, heq2, htb, hta, hob, hoa⟩ :=
        ih (ai + k) (bj + k) hrest (bacc ++ S) (aacc ++ T)
          (bpos + ((listSlice bw i (ai + k)).map String.length).sum)
          (apos + ((listSlice aw j (bj + k)).map String.length).sum)
      refine ⟨S ++ nb, T ++ na, ?_, ?_, ?_, ?_, ?_⟩
      · rw [heq, heq2, List.append_assoc, List.append_assoc]
      · rw [List.map_append, htS, htb]
        exact slice_drop bw i (ai + k) (by omega)
      · rw [List.map_append, htT, hta]
        exact slice_drop aw j (bj + k) (by omega)
      · refine offsetsOk_append _ _ _ hoS ?_
        rw [htS]
        exact hob
      · refine offsetsOk_append _ _ _ hoT ?_
        rw [htT]
        exact hoa

/-- `(a ++ b).data` splits into the two character lists. -/
theorem strAppend_data (a b : String) : (a ++ b).data = a.data ++ b.data := rfl

theorem stringJoin_data (l : List String) :
    (String.join l).data = (l.map String.data).flatten := by
  have aux : ∀ (l : List String) (acc : String),
      (l.foldl (fun r s => r ++ s) acc).data = acc.data ++ (l.map String.data).flatten := by
    intro l
    induction l with
    | nil => intro acc; simp
    | cons s l ih =>
        intro acc
        rw [List.foldl_cons, ih]
        simp [strAppend_data]
  show (l.foldl (fun r s => r ++ s) "").data = (l.map String.data).flatten
  rw [aux]
  rfl

/-- The display-diff tokenizer partitions the character list: flattening the
tokens gives back the input. -/
theorem wordSpaceTokensList_join : ∀ (cs : List Char), (wordSpaceTokensList cs).flatten = cs := by
  intro cs
  induction cs with
  | nil => rfl
  | cons c rest ih =>
      simp only [wordSpaceTokensList]
      split
      · cases hr : wordSpaceTokensList rest with
        | nil =>
            rw [hr] at ih
            simp only [List.flatten_nil] at ih
            rw [← ih]
            rfl
        | cons t ts =>
            rw [hr] at ih
            simp only [List.flatten_cons] at ih
            show ((c :: t) :: ts).flatten = c :: rest
            simp only [List.flatten_cons, List.cons_append, ih]
      · simp only [List.flatten_cons, List.singleton_append, ih]

theorem mapdata_mk : ∀ (ts : List (List Char)),
    (ts.map (fun cs : List Char => (⟨cs⟩ : String))).map String.data = ts := by
  intro ts
  induction ts with
  | nil => rfl
  | cons t ts ih =>
      simp only [List.map_cons]
      rw [ih]

/-- Joining the display-diff tokens of a string reproduces it exactly. -/
theorem join_wordSpaceTokens (s : String) : String.join (wordSpaceTokens s) = s := by
  have h : (String.join (wordSpaceTokens s)).data = s.data := by
    rw [stringJoin_data, wordSpaceTokens, mapdata_mk, wordSpaceTokensList_join]
  calc String.join (wordSpaceTokens s) = ⟨(String.join (wordSpaceTokens s)).data⟩ := rfl
    _ = ⟨s.data⟩ := by rw [h]
    _ = s := rfl

/-- **C4.** For every (before, after) text pair, concatenating in order the
texts of the before-spans produced by `_compute_word_diff_spans` reproduces
the before text exactly (the tokenizer keeps whitespace runs as tokens, so
the reconstruction is even exact, not merely modulo whitespace), and likewise
the after-span texts reproduce the after text; and the recorded character
offsets are consecutive positions from 0, i.e. each span's offset is its
text's starting position in the corresponding original string. -/
theorem claim_C4 (before after : String) :
    String.join (((computeWordDiffSpans before after).before_spans).map (fun s => s.text))
        = before ∧
    String.join (((computeWordDiffSpans before after).after_spans).map (fun s => s.text))
        = after ∧
    offsetsOk 0 (computeWordDiffSpans before after).before_spans ∧
    offsetsOk 0 (computeWordDiffSpans before after).after_spans := by
  obtain ⟨nb, na, heq, htb, hta, hob, hoa⟩ :=
    wordDiffFold_spec (wordSpaceTokens before) (wordSpaceTokens after)
      (getMatchingBlocks isSpaceTok (wordSpaceTokens before) (wordSpaceTokens after)) 0 0
      (getMatchingBlocks_chain isSpaceTok _ _) [] [] 0 0
  have hcw : computeWordDiffSpans before after = ⟨nb, na⟩ := by
    unfold computeWordDiffSpans getOpcodes
    dsimp only
    rw [heq]
    simp
  rw [hcw]
  dsimp only
  rw [List.drop_zero] at htb hta
  rw [htb, hta]
  exact ⟨join_wordSpaceTokens before, join_wordSpaceTokens after, hob, hoa⟩
